import Mathlib

/-!
# Verification of the zxc caching filesystem front-end (clive, `zx/zxc/zxc.go`)

This file gives a shallow embedding of the parts of `zx/zxc/zxc.go` that the
claims under scrutiny are about, and proves (or refutes) each claim.

Conventions of the embedding:

* Paths are Lean `String`s, exactly as in the Go code.  The helpers of the
  `clive/zx` package (`zx.Elems`, `zx.HasPrefix`, `zx.Suffix`,
  `zx.UseAbsPath`) and of Go's standard `path` package (`path.Dir`,
  `path.Join`) are not part of the single source file; they are modelled
  below, restricted to cleaned absolute paths (which is all that
  `zxc.go` ever feeds them, since every entry point first runs
  `zx.UseAbsPath`).  Each such model carries a doc comment saying so.
* A `Dir` (directory entry) is an association list from string keys to
  string values; `Dir.get` returns `""` for an absent key, exactly like a
  Go map read returns the zero value.
* Errors are modelled by the inductive `Err` below; `Err.kind` maps each
  error to the taxonomy of the specification (§7).
* Stateful operations are modelled as pure functions that return, beside
  the `Except` result, a trace of the externally visible events they
  perform (lock acquisitions, cache invalidations, remote calls), so that
  claims about lock ordering and about the absence of effects can be
  stated directly.
* The cache is modelled in its warm state (all metadata / directory data
  already fetched, no pending remote fetches) wherever a claim is about
  the pure walking / checking logic; the fetch-failure logic itself
  (`getMeta`, `getDirData`) is modelled separately with the remote
  outcome as an explicit parameter.
* Permission predicates (`CanWalk`, `CanGet`, `CanPut`, `CanWstat`) are
  evaluated for a `nil` auth subject, which the specification (§4.3)
  states is always allowed.
-/

set_option autoImplicit false

namespace Zxc

/-! ## Path strings

`clive/zx` paths are `/`-separated absolute paths.  We model splitting
and joining at the character level so that round-trip lemmas are
provable. -/

/-- Split a character list on `'/'`, keeping empty segments.
The result is always nonempty. -/
def splitSlash : List Char → List (List Char)
  | [] => [[]]
  | c :: cs =>
    if c = '/' then [] :: splitSlash cs
    else
      match splitSlash cs with
      | s :: ss => (c :: s) :: ss
      | [] => [[c]]

/-- Join segments with `'/'` separators (inverse of `splitSlash`). -/
def joinSegs : List (List Char) → List Char
  | [] => []
  | [s] => s
  | s :: ss => s ++ '/' :: joinSegs ss

/-- The path elements of an absolute path: nonempty `/`-separated
segments, as `String`s.

Modelled from the spec: `zx.Elems` (clive/zx, not under `src/`) returns
the list of nonempty path elements of a path; for `"/"` it is empty. -/
def elems (p : String) : List String :=
  ((splitSlash p.data).filter (fun s => decide (s ≠ []))).map (fun s => ⟨s⟩)

/-- Rebuild a cleaned absolute path from its elements
(`pathOf [] = "/"`). -/
def pathOf (es : List String) : String :=
  ⟨'/' :: joinSegs (es.map String.data)⟩

/-- A good path segment: nonempty, no slash, not `"."` or `".."`. -/
def goodSeg (s : List Char) : Bool :=
  decide (s ≠ []) && decide ('/' ∉ s) && decide (s ≠ ['.']) &&
    decide (s ≠ ['.', '.'])

/-- A cleaned absolute path: `"/"`, or `'/'` followed by good segments
separated by single slashes. -/
def validPath (p : String) : Bool :=
  match p.data with
  | [] => false
  | c :: rest => decide (c = '/') && (decide (rest = []) ||
      (splitSlash rest).all goodSeg)

/-! ## Error taxonomy (spec §7) -/

/-- The error kinds of spec §7. -/
inductive ErrKind where
  | notExistK | existsK | isDirK | notDirK | permK | ioK | badPathK
  | unsupportedK | otherK
  deriving DecidableEq, Repr

/-- Errors produced by the modelled code paths of `zxc.go`.  Each
constructor corresponds to one family of error sites in the source. -/
inductive Err where
  /-- `zx.ErrNotExist` (walk of a missing or tombstoned entry). -/
  | notExist
  /-- `zx.ErrExists` (creation target already present; `forLink` walk). -/
  | alreadyExists
  /-- `zx.ErrIsDir`. -/
  | isDir
  /-- `zx.ErrNotDir`. -/
  | notDir
  /-- `zx.ErrPerm` (reserved paths `/` and `/Ctl`, permission checks). -/
  | perm
  /-- A transport (I/O) error from the remote. -/
  | io
  /-- `zx.UseAbsPath` rejection of an invalid path. -/
  | badPath
  /-- `"move %s: inconsistent move"` (zxc.go line 718). -/
  | inconsistentMove
  /-- `"link %s: inconsistent link"` (zxc.go line 829). -/
  | inconsistentLink
  /-- `"%s: move not supported"` (zxc.go line 698). -/
  | moveNotSupported
  /-- `"%s: link not supported"` (zxc.go line 809). -/
  | linkNotSupported
  /-- `zx.ErrNotSuffix` (find rewriting, zxc.go lines 1108, 1166). -/
  | notSuffix
  /-- `"%s: bad file type '%s'"` (zxc.go line 927). -/
  | badFileType
  deriving DecidableEq, Repr

/-- Classify an error into the spec §7 taxonomy.  `inconsistent move`,
`inconsistent link` and `not-a-suffix` are `BadPath` per §7
("path parsing or inconsistent prefix"). -/
def Err.kind : Err → ErrKind
  | .notExist => .notExistK
  | .alreadyExists => .existsK
  | .isDir => .isDirK
  | .notDir => .notDirK
  | .perm => .permK
  | .io => .ioK
  | .badPath => .badPathK
  | .inconsistentMove => .badPathK
  | .inconsistentLink => .badPathK
  | .moveNotSupported => .unsupportedK
  | .linkNotSupported => .unsupportedK
  | .notSuffix => .badPathK
  | .badFileType => .otherK

/-- `zx.IsIOError`.  Modelled from the spec: only transport failures are
I/O errors. -/
def Err.isIO : Err → Bool
  | .io => true
  | _ => false

/-- `zx.IsNotExist`. -/
def Err.isNotExist : Err → Bool
  | .notExist => true
  | _ => false

/-! ## Modelled `clive/zx` path helpers -/

/-- Modelled from the spec: `zx.UseAbsPath` (clive/zx, not under `src/`)
resolves a client path to a cleaned absolute path, rejecting invalid
ones ("clients may pass relative forms; the core rejects invalid
paths", spec §6).  The model is the identity on cleaned absolute paths
and rejects everything else; quantifications below range over cleaned
absolute paths, so the elided cleaning of non-canonical inputs is never
exercised. -/
def useAbsPath (p : String) : Except Err String :=
  if validPath p then .ok p else .error .badPath

/-- Modelled from the spec: `zx.HasPrefix p pref` (clive/zx, not under
`src/`) holds when `pref` is a path-prefix of `p`, i.e. the elements of
`pref` are an initial segment of the elements of `p` ("inconsistent
prefix (move-into-self, link-into-parent)", spec §7). -/
def hasPfx (p pref : String) : Bool :=
  (elems pref).isPrefixOf (elems p)

/-- Modelled from the spec: `zx.Suffix p pref` (clive/zx, not under
`src/`) strips the path-prefix `pref` from `p`, returning the remaining
rooted suffix (`"/"` when `p = pref`), and `""` when `pref` is not a
path-prefix of `p` ("The transformation `path → join(dPrefix,
suffix(path, sPrefix))` requires `sPrefix` to be a path-prefix of
`path`", spec §9). -/
def zxSuffix (p pref : String) : String :=
  if hasPfx p pref then pathOf ((elems p).drop (elems pref).length) else ""

/-- Model of Go `path.Join` restricted to the use in `zxc.go`: both
arguments are rooted cleaned paths, so joining concatenates the element
lists and cleans. -/
def goJoin (a b : String) : String :=
  pathOf (elems a ++ elems b)

/-- Model of Go `path.Dir` restricted to cleaned absolute paths: drop
the last path element (`goDirname "/" = "/"`). -/
def goDirname (p : String) : String :=
  pathOf ((elems p).dropLast)

/-- Go byte-wise string comparison `a < b`, on characters.  For valid
UTF-8, byte-wise and codepoint-wise lexicographic orders agree. -/
def charsLess : List Char → List Char → Bool
  | [], [] => false
  | [], _ :: _ => true
  | _ :: _, [] => false
  | a :: as, b :: bs =>
    if a.toNat < b.toNat then true
    else if b.toNat < a.toNat then false
    else charsLess as bs

/-- Go string comparison `a < b` as used by `move`'s lock-order switch. -/
def strLess (a b : String) : Bool :=
  charsLess a.data b.data

/-- All elements of a path are good segments. -/
def goodElems (es : List String) : Bool :=
  es.all (fun e => goodSeg e.data)

/-! ## Directory entries (`zx.Dir`) -/

/-- A directory entry: an association list from string keys to string
values (`zx.Dir` is a Go map). -/
abbrev Dir := List (String × String)

/-- Go map read `d[k]`: the zero value `""` when the key is absent. -/
def dget (d : Dir) (k : String) : String :=
  match d.find? (fun kv => kv.1 == k) with
  | some kv => kv.2
  | none => ""

/-- Go `delete(d, k)`. -/
def ddel (d : Dir) (k : String) : Dir :=
  d.filter (fun kv => !(kv.1 == k))

/-- Go map write `d[k] = v`. -/
def dset (d : Dir) (k v : String) : Dir :=
  if (d.find? (fun kv => kv.1 == k)).isSome then
    d.map (fun kv => if kv.1 == k then (k, v) else kv)
  else
    d ++ [(k, v)]

/-- The process user id `u.Uid`: a fixed string of the environment. -/
def uUid : String := "u"

/-- The synthetic `/Ctl` entry `ctldir` (zxc.go lines 50-61). -/
def ctldir : Dir :=
  [("name", "Ctl"), ("path", "/Ctl"), ("addr", "zxc!/Ctl"),
   ("mode", "0644"), ("size", "0"), ("mtime", "0"), ("type", "c"),
   ("uid", uUid), ("gid", uUid), ("wuid", uUid)]

/-- Modelled from the spec: `zx.All` is the count meaning "no limit";
the spec's scenario `Get("/", 0, -1)` shows its value `-1`. -/
def zxAll : Int := -1

/-! ## `get` on a directory: the `Dloop` of `fs.get` (zxc.go 578-619)

The loop state is `(off, count, ctlsent, i/ds)`.  Once `ctlsent` is
true it never becomes false again, so the loop is split into two
structurally recursive functions, one per value of `ctlsent`; each is
the loop body verbatim with `ctlsent` fixed.  The in-place removal of
`.zx`/`.#zx` entries from the slice (with the `i == len(ds)-1` break)
is equivalent to skipping them, and the index `i` plus slice is
represented by the list tail. -/

/-- The `Dloop` of `fs.get` after `ctlsent` became true (or for a
non-root `p`, where `ctlsent && p == "/"` is never taken). -/
def getDirRest (p : String) (off count : Int) : List Dir → List Dir
  | [] => []
  | d :: rest =>
    if 0 < off then
      -- off > 0: consume one unit of offset and advance
      getDirRest p (off - 1) count rest
    else
      -- switch count: case All: keep going; case 0: break Dloop;
      -- default: count-- (zxAll = -1 ≠ 0, so testing 0 first is the same)
      if count = 0 then []
      else
        let count' := if count = zxAll then count else count - 1
        if dget d "name" == ".zx" || dget d "name" == ".#zx" then
          getDirRest p off count' rest
        else
          d :: getDirRest p off count' rest

/-- The `Dloop` of `fs.get` with `ctlsent = false` (its initial state). -/
def getDirList (p : String) (off count : Int) : List Dir → List Dir
  | [] => []
  | d :: rest =>
    if 0 < off then
      if p == "/" then
        -- the root /Ctl entry is counted against off without advancing i
        getDirRest p (off - 1) count (d :: rest)
      else
        getDirList p (off - 1) count rest
    else
      if count = 0 then []
      else
        let count' := if count = zxAll then count else count - 1
        if p == "/" then
          -- inject the synthetic /Ctl entry, without advancing i
          ctldir :: getDirRest p off count' (d :: rest)
        else if dget d "name" == ".zx" || dget d "name" == ".#zx" then
          getDirList p off count' rest
        else
          d :: getDirList p off count' rest

/-- `.zx` and `.#zx` are the hidden bookkeeping names skipped by the
listing. -/
def notHidden (d : Dir) : Bool :=
  !(dget d "name" == ".zx" || dget d "name" == ".#zx")

/-! ## The cache tree and the walk (zxc.go 306-437)

A node of the cache (`fsFile`) in its warm state: metadata and
directory data already fetched (`metaOk`/`dataOk` hold), so `getMeta`
and `getDirData` are not invoked by the walk; the fetch-failure logic
itself is modelled separately below.  Permission predicates are
evaluated with a nil auth subject, which is always allowed (spec §4.3),
so the `fs.perms` checks of the walk cannot fail. -/
inductive FNode where
  | mk (dir : Dir) (del : Bool) (kids : List FNode)

def FNode.dir : FNode → Dir
  | .mk d _ _ => d

/-- The `gone` tombstone flag (`f.isDel()`). -/
def FNode.isDel : FNode → Bool
  | .mk _ del _ => del

def FNode.kids : FNode → List FNode
  | .mk _ _ ks => ks

def FNode.path (f : FNode) : String := dget f.dir "path"

def FNode.name (f : FNode) : String := dget f.dir "name"

/-- `f.walk1(name)`: look the child up by name in the children index. -/
def walk1 (f : FNode) (n : String) : Option FNode :=
  f.kids.find? (fun k => k.name == n)

/-- The walk modes (zxc.go 23-33). -/
inductive WalkFor where
  | forStat | forGet | forPut | forDel | forCreat | forLink | forCreatAll
  deriving DecidableEq, Repr

/-- The child path `fpath.Join(od["path"], els[0])` for a parent path
and a child name, on cleaned absolute parent paths. -/
def childPath (pp n : String) : String :=
  if pp = "/" then pp ++ n else pp ++ "/" ++ n

/-- `fs.walk` (zxc.go 306-437) on the warm cache with a nil auth
subject.  `nd` is the template dir for `forCreatAll`, `now` the
creation timestamp.  Line-by-line: the node is locked; `metaOk` holds
so no `getMeta`; a tombstoned node fails not-exist; at the terminal the
mode checks run (the `forCreat`/`forCreatAll` terminal rejection is
behind `if false` and never fires); at intermediate steps a non-dir
fails not-dir, permissions (nil subject) pass, `dataOk` holds so no
`getDirData`; a missing child is synthesized for `forCreatAll` with
elements remaining, the parent is returned for
`forCreat`/`forCreatAll`/`forLink` at the last element, and not-exist
fails otherwise. -/
def walk (why : WalkFor) (nd : Dir) (now : String) (f : FNode) :
    List String → Except Err FNode
  | [] =>
    if f.isDel then .error .notExist
    else
      match why with
      | .forStat => .ok f
      | .forGet => .ok f
      | .forPut =>
        if dget f.dir "type" == "d" then .error .isDir else .ok f
      | .forDel => .ok f
      | .forCreat => .ok f
      | .forCreatAll => .ok f
      | .forLink => .error .alreadyExists
  | e :: rest =>
    if f.isDel then .error .notExist
    else if !(dget f.dir "type" == "d") then .error .notDir
    else
      match walk1 f e with
      | some cf => walk why nd now cf rest
      | none =>
        if why = .forCreatAll ∧ rest ≠ [] then
          -- synthesize an intermediate directory (zxc.go 402-424)
          let od := f.dir
          let p' := childPath (dget od "path") e
          let uid := dget od "uid"
          let dd :=
            dset (dset (dset (dset (dset (dset (dset (dset (dset nd
              "type" "d") "name" e) "path" p') "addr" ("zxc!" ++ p'))
              "uid" uid) "gid" (dget od "gid")) "mode" (dget od "mode"))
              "mtime" now) "wuid" uid
          walk why nd now (FNode.mk dd false []) rest
        else if (why = .forCreat ∨ why = .forCreatAll ∨ why = .forLink) ∧
            rest = [] then
          .ok f
        else .error .notExist

/-- Plain resolution of a path in the warm cache: the node found by
descending through directories, `none` for tombstoned, missing, or
non-directory-blocked paths.  This is the semantic notion of "the path
exists in the cache" against which the walk is characterized. -/
def resolve (f : FNode) : List String → Option FNode
  | [] => if f.isDel then none else some f
  | e :: rest =>
    if f.isDel then none
    else if !(dget f.dir "type" == "d") then none
    else
      match walk1 f e with
      | some c => resolve c rest
      | none => none

mutual

/-- Well-formedness of the cache tree (spec §3 invariant 1): every
child's recorded path is its parent's path extended by its name. -/
def wfNode : FNode → Bool
  | .mk d _ kids => wfKids (dget d "path") kids

/-- All nodes of a children list are well-formed under parent path
`pp`. -/
def wfKids : String → List FNode → Bool
  | _, [] => true
  | pp, k :: ks =>
    ((dget k.dir "path" == childPath pp (dget k.dir "name")) && wfNode k)
      && wfKids pp ks

end

/-- The mode-specific terminal outcome of the walk on an existing node
(zxc.go 322-370, warm cache, nil subject). -/
def terminalMode (why : WalkFor) (n : FNode) : Except Err FNode :=
  match why with
  | .forPut => if dget n.dir "type" == "d" then .error .isDir else .ok n
  | .forLink => .error .alreadyExists
  | _ => .ok n

/-! ## `fs.wstat` (zxc.go 469-513) -/

/-- Modelled from the spec: the node operation `wstat(nd)` applies a
metadata delta (a subset of keys) to the node's `dir` and never changes
`type` (spec §4.1). -/
def applyDelta (d delta : Dir) : Dir :=
  delta.foldl (fun acc kv =>
    if kv.1 == "type" then acc else dset acc kv.1 kv.2) d

/-- The delta actually applied by `fs.wstat` (zxc.go 491-496): drop
`size` when the resolved entry `d` is a directory, drop `wuid` when it
is nonempty. -/
def wstatDelta (d nd : Dir) : Dir :=
  let nd1 := if dget d "type" == "d" then ddel nd "size" else nd
  if !(dget nd1 "wuid" == "") then ddel nd1 "wuid" else nd1

/-- `fs.wstat` (zxc.go 469-513) on the warm cache with a nil auth
subject.  Returns the duplicated directory entry after the delta was
applied, together with the delta that was actually applied (after the
forbidden keys were dropped).  `d.CanWstat(ai, nd)` with a nil subject
is always allowed (spec §4.3), and the node `wstat` cannot fail, so the
only failures are path and walk failures.  The sync scheduling after
the call has no bearing on the result. -/
def wstat (root : FNode) (now : String) (p0 : String) (nd : Dir) :
    Except Err (Dir × Dir) :=
  match useAbsPath p0 with
  | .error e => .error e
  | .ok p =>
    if p == "/Ctl" then .ok (ctldir, nd)  -- wstat is ignored for this file
    else
      -- why := forStat; if nd["size"] != "" { why = forPut }
      match walk (if !(dget nd "size" == "") then WalkFor.forPut
          else WalkFor.forStat) [] now root (elems p) with
      | .error e => .error e
      | .ok f =>
        -- d.CanWstat(ai, nd2): nil subject, always allowed
        -- f.wstat(nd2): apply the delta; d = d.Dup() afterwards
        .ok (applyDelta f.dir (wstatDelta f.dir nd), wstatDelta f.dir nd)

/-! ## `fs.put` (zxc.go 888-1027) -/

/-- The tail of `fs.put` after the walk returned `wres` (zxc.go
929-1026), for normalized type discriminator `typ`.  After the
`Exists` check, the remaining steps (uid/gid defaulting,
`CanWstat` with a nil subject, `newFile`, `wstat`, `putData`) cannot
fail on the warm cache, so the model collapses them to success; the
claims about `put` concern only its error behavior. -/
def putAfterWalk (p typ : String) (wres : Except Err FNode) :
    Except Err Unit :=
  match wres with
  | .error e => .error e
  | .ok f =>
    -- wd := f.dir()
    -- if wd["path"] == p && typ != "" && wd["type"] != typ → ErrExists
    if dget f.dir "path" == p && !(typ == "") && !(dget f.dir "type" == typ)
    then
      .error .alreadyExists
    else
      .ok ()

/-- `fs.put` (zxc.go 888-1027) on the warm cache with a nil auth
subject.  The streamed content and returned metadata are elided; only
the success/error outcome is modelled. -/
def put (root : FNode) (now : String) (p0 : String) (d : Dir) :
    Except Err Unit :=
  match useAbsPath p0 with
  | .error e => .error e
  | .ok p =>
    if p == "/" then .error .isDir
    else if p == "/Ctl" then .ok ()  -- putCtl: a control write
    else
      let els := elems p
      match dget d "type" with
      | "" => putAfterWalk p "" (walk .forPut [] now root els)
      | "d" =>
        -- delete(d, "size"); walk forCreat
        putAfterWalk p "d" (walk .forCreat [] now root els)
      | "-" =>
        -- default d["size"] to "0"; walk forCreat
        putAfterWalk p "-" (walk .forCreat [] now root els)
      | "D" =>
        -- d["type"] = "d"; typ = "d"; walk forCreatAll with template d
        putAfterWalk p "d" (walk .forCreatAll (dset d "type" "d") now root els)
      | "F" =>
        -- d["type"] = "-"; typ = "-"; default size; walk forCreatAll
        putAfterWalk p "-" (walk .forCreatAll
          (dset (if dget d "size" == "" then dset d "size" "0" else d)
            "type" "-") now root els)
      | _ => .error .badFileType

/-! ## `fs.getMeta` and `fs.getDirData` (zxc.go 256-289) -/

/-- The effect of a fetch on the cached node. -/
inductive NodeEff where
  /-- The node is left as it was (stale view retained). -/
  | keep
  /-- `f.gone()`: the node is tombstoned. -/
  | tomb
  /-- `f.gotMeta d`: the metadata is accepted. -/
  | acceptMeta (d : Dir)
  /-- `f.gotDir ds`: the directory data is accepted. -/
  | acceptDir (ds : List Dir)
  deriving DecidableEq, Repr

/-- `fs.getMeta` (zxc.go 256-269): `statRes` is the outcome of
`zx.Stat(fs.rfs, f.path())`.  Result: the returned error, the effect on
the node, and whether `needRedial` was signalled. -/
def getMeta (redialok : Bool) (statRes : Except Err Dir) :
    Except Err Unit × NodeEff × Bool :=
  match statRes with
  | .error e =>
    if e.isIO && redialok then
      (.ok (), .keep, true)  -- have old meta; use that
    else if e.isNotExist then (.error e, .tomb, false)
    else (.error e, .keep, false)
  | .ok d => (.ok (), .acceptMeta d, false)

/-- `fs.getDirData` (zxc.go 272-289): `dirRes` is the outcome of
`zx.GetDir(fs.rfs, f.path())`; `oldOk` is `f.oldDataOk()`.  On success
every entry's `addr` is rewritten to `zxc!<path>` before `gotDir`. -/
def getDirData (redialok oldOk : Bool) (dirRes : Except Err (List Dir)) :
    Except Err Unit × NodeEff × Bool :=
  match dirRes with
  | .error e =>
    if e.isIO && redialok && oldOk then
      (.ok (), .keep, true)  -- use the old data
    else if e.isNotExist then (.error e, .tomb, false)
    else (.error e, .keep, false)
  | .ok ds =>
    (.ok (), .acceptDir (ds.map (fun d =>
      dset d "addr" ("zxc!" ++ dget d "path"))), false)

/-! ## `fs.move` (zxc.go 686-782) -/

/-- `inconsistentMove` (zxc.go 686-693): "moves from inside itself?
i.e. is from a prefix of to". -/
def inconsistentMove (fromP toP : String) : Bool :=
  if fromP == toP then false
  else hasPfx toP fromP

/-- The externally visible events of a `move`. -/
inductive MoveEv where
  /-- `fs.c.sync(fs.rfs)` (zxc.go 720). -/
  | syncAll
  /-- walk-and-invalidate of a path (zxc.go 726, 733). -/
  | invalWalked (p : String)
  /-- a parent walked and returned locked for the final pair of locks
  (zxc.go 748, 753, 759, 765, 770). -/
  | lockParent (p : String)
  /-- `ffrom.inval(); fto.inval()` under the pair of locks (776-777). -/
  | invalParent (p : String)
  /-- `rfs.Move(from, to)` (zxc.go 778). -/
  | remoteMove (fromP toP : String)
  deriving DecidableEq, Repr

/-- Outcomes of the walks performed by `move`, as an oracle: the walks
run against the shared cache and remote, which the trace-level model
does not carry. -/
structure MoveEnv where
  /-- outcome of `fs.walk(forDel, fromels...)` (zxc.go 722). -/
  wdel : Option Err
  /-- outcome and resulting node path of `fs.walk(forCreat, toels...)`
  (zxc.go 729): the path is `to` itself or its parent. -/
  wcreat : Except Err String
  /-- outcome of `fs.walk(forStat, els...)` on a parent path. -/
  wstatp : String → Option Err
  /-- outcome of `rfs.Move(from, to)` (zxc.go 778). -/
  remote : Option Err

/-- The tail of `move` under the pair of parent locks (zxc.go
776-781): invalidate both walked nodes, forward to the remote. -/
def moveFinish (env : MoveEnv) (fromP toP pf pt : String)
    (tr : List MoveEv) : Except Err Unit × List MoveEv :=
  let tr := tr ++ [.invalParent pf, .invalParent pt,
    .remoteMove fromP toP]
  match env.remote with
  | some e => (.error e, tr)
  | none => (.ok (), tr)

/-- `fs.move` (zxc.go 695-782).  The lock order for the two parents is
decided by the Go string comparison of `pfrom = fpath.Dir(from)` and
`pto = fpath.Dir(to)` before the locking walks run: `pfrom > pto`
walks (and locks) `pfrom` then `pto`; `pfrom == pto` locks it once;
`pfrom < pto` walks `pto` then `pfrom`. -/
def move (moverOk : Bool) (env : MoveEnv) (fromP0 toP0 : String) :
    Except Err Unit × List MoveEv :=
  if !moverOk then (.error .moveNotSupported, [])
  else
    match useAbsPath fromP0 with
    | .error e => (.error e, [])
    | .ok fromP =>
      match useAbsPath toP0 with
      | .error e => (.error e, [])
      | .ok toP =>
        if fromP == toP then (.ok (), [])
        else if fromP == "/Ctl" || fromP == "/" then (.error .perm, [])
        else if toP == "/Ctl" || toP == "/" then (.error .perm, [])
        else if inconsistentMove fromP toP then
          (.error .inconsistentMove, [])
        else
          let tr0 := [MoveEv.syncAll]
          match env.wdel with
          | some e => (.error e, tr0)
          | none =>
            let tr1 := tr0 ++ [.invalWalked fromP]
            match env.wcreat with
            | .error e => (.error e, tr1)
            | .ok q =>
              let tr2 := tr1 ++ [.invalWalked q]
              let pfrom := goDirname fromP
              let pto := goDirname toP
              if strLess pto pfrom then
                -- case pfrom > pto: walk pfrom first, then pto
                match env.wstatp pfrom with
                | some e => (.error e, tr2)
                | none =>
                  match env.wstatp pto with
                  | some e => (.error e, tr2 ++ [.lockParent pfrom])
                  | none =>
                    moveFinish env fromP toP pfrom pto
                      (tr2 ++ [.lockParent pfrom, .lockParent pto])
              else if pfrom == pto then
                -- case pfrom == pto: walk pfrom once; fto is the node
                -- of the earlier forCreat walk
                match env.wstatp pfrom with
                | some e => (.error e, tr2)
                | none =>
                  moveFinish env fromP toP pfrom q
                    (tr2 ++ [.lockParent pfrom])
              else
                -- case pfrom < pto: walk pto first, then pfrom
                match env.wstatp pto with
                | some e => (.error e, tr2)
                | none =>
                  match env.wstatp pfrom with
                  | some e => (.error e, tr2 ++ [.lockParent pto])
                  | none =>
                    moveFinish env fromP toP pfrom pto
                      (tr2 ++ [.lockParent pto, .lockParent pfrom])

/-- The sequence of parent-lock acquisitions in a move trace. -/
def lockSeq (tr : List MoveEv) : List String :=
  tr.filterMap (fun ev =>
    match ev with
    | .lockParent p => some p
    | _ => none)

/-! ## `fs.link` (zxc.go 797-848) -/

/-- `inconsistentLink` (zxc.go 797-801): "links back to a parent?
i.e. is oldp a prefix of newp". -/
def inconsistentLink (oldp newp : String) : Bool :=
  hasPfx newp oldp

/-- The externally visible events of a `link`. -/
inductive LinkEv where
  /-- `fs.c.sync(fs.rfs)` (zxc.go 831). -/
  | syncAll
  /-- `ffrom.inval()` on the node returned by the `forLink` walk
  (zxc.go 844). -/
  | invalTarget (p : String)
  /-- `rfs.Link(to, from)` (zxc.go 845). -/
  | remoteLink (toP fromP : String)
  /-- `fs.getDirData(ffrom)` refresh (zxc.go 846). -/
  | refreshDir (p : String)
  deriving DecidableEq, Repr

/-- The warm-cache view the walks of `link` run against: `exi p` holds
when the path `p` resolves in the cache.  A `forStat` walk on `p`
succeeds exactly when `exi p`; a `forLink` walk on `p` fails `Exists`
when `exi p`, returns the locked parent when `exi (dirname p)`, and
fails not-exist otherwise. -/
structure LinkEnv where
  exi : String → Bool
  /-- outcome of `rfs.Link(to, from)` (zxc.go 845). -/
  remote : Option Err

/-- `fs.link` (zxc.go 806-848).  Note two peculiarities of the source,
both modelled exactly: the prefix check is `inconsistentLink(from, to)`
(zxc.go 828), and the `forStat` walk runs on `toels := zx.Elems(from)`
(zxc.go 832) — the elements of `from`, not of `to`. -/
def link (linkerOk : Bool) (env : LinkEnv) (toP0 fromP0 : String) :
    Except Err Unit × List LinkEv :=
  if !linkerOk then (.error .linkNotSupported, [])
  else
    match useAbsPath fromP0 with
    | .error e => (.error e, [])
    | .ok fromP =>
      match useAbsPath toP0 with
      | .error e => (.error e, [])
      | .ok toP =>
        if fromP == toP then (.ok (), [])
        else if fromP == "/Ctl" || fromP == "/" then (.error .perm, [])
        else if toP == "/Ctl" || toP == "/" then (.error .perm, [])
        else if inconsistentLink fromP toP then
          (.error .inconsistentLink, [])
        else
          let tr0 := [LinkEv.syncAll]
          -- toels := zx.Elems(from); walk(forStat, toels...): resolves
          -- `from` on the warm cache
          if !(env.exi fromP) then (.error .notExist, tr0)
          else
            -- fromels := zx.Elems(from); walk(forLink, fromels...)
            if env.exi fromP then (.error .alreadyExists, tr0)
            else if !(env.exi (goDirname fromP)) then
              (.error .notExist, tr0)
            else
              let par := goDirname fromP
              let tr1 := tr0 ++ [LinkEv.invalTarget par,
                .remoteLink toP fromP, .refreshDir par]
              match env.remote with
              | some e => (.error e, tr1)
              | none => (.ok (), tr1)

/-- The remote link calls in a link trace. -/
def remoteLinks (tr : List LinkEv) : List (String × String) :=
  tr.filterMap (fun ev =>
    match ev with
    | .remoteLink t f => some (t, f)
    | _ => none)

/-! ## The find path rewriting (zxc.go 1103-1111 and 1162-1169) -/

/-- The rewrite `fs.find` applies to the root entry's path (zxc.go
1162-1169): when `spref != dpref`, require `spref` to be a path-prefix
(`zx.Suffix` returns `""` otherwise, failing `ErrNotSuffix`) and
replace it by `dpref`. -/
def findRootRewrite (spref dpref p : String) : Except Err String :=
  if !(spref == dpref) then
    let suff := zxSuffix p spref
    if suff == "" then .error .notSuffix
    else .ok (goJoin dpref suff)
  else .ok p

/-- The rewrite `fs.findr` applies to each visited child entry's path
`cd["path"]` (zxc.go 1103-1111), identical in content to the root
rewrite. -/
def findrChildRewrite (spref dpref cpath : String) : Except Err String :=
  if !(spref == dpref) then
    let suff := zxSuffix cpath spref
    if suff == "" then .error .notSuffix
    else .ok (goJoin dpref suff)
  else .ok cpath

/-! ## Concrete fixtures used by counterexamples and witnesses -/

/-- A move-walk oracle where every walk succeeds. -/
def envAllOk : MoveEnv := ⟨none, .ok "/a/b/y", fun _ => none, none⟩

/-- A link-walk view where exactly `/a` exists. -/
def linkEnvA : LinkEnv := ⟨fun s => s == "/a", none⟩

/-- Root entry of a small cache. -/
def rootDir : Dir := [("name", "/"), ("path", "/"), ("type", "d")]

/-- A directory entry `/d`. -/
def dDir : Dir := [("name", "d"), ("path", "/d"), ("type", "d")]

/-- A cache holding only the root directory. -/
def treeRootOnly : FNode := .mk rootDir false []

/-- A cache holding the root and one subdirectory `/d`. -/
def treeD : FNode := .mk rootDir false [.mk dDir false []]

/-- Natural listing entry `a`. -/
def dirA : Dir := [("name", "a"), ("path", "/a"), ("type", "-")]

/-- Natural listing entry `b`. -/
def dirB : Dir := [("name", "b"), ("path", "/b"), ("type", "-")]

/-! ## Theorems -/

theorem splitSlash_ne_nil (cs : List Char) : splitSlash cs ≠ [] := by
  induction cs with
  | nil => simp [splitSlash]
  | cons c cs ih =>
    simp only [splitSlash]
    split
    · simp
    · cases h : splitSlash cs with
      | nil => exact absurd h ih
      | cons s ss => simp

theorem joinSegs_splitSlash (cs : List Char) : joinSegs (splitSlash cs) = cs := by
  induction cs with
  | nil => rfl
  | cons c cs ih =>
    simp only [splitSlash]
    split
    · rename_i h
      subst h
      cases h : splitSlash cs with
      | nil => exact absurd h (splitSlash_ne_nil cs)
      | cons s ss =>
        rw [h] at ih
        simp [joinSegs, ← ih]
    · cases h : splitSlash cs with
      | nil => exact absurd h (splitSlash_ne_nil cs)
      | cons s ss =>
        rw [h] at ih
        cases ss with
        | nil => simp [joinSegs] at ih ⊢; exact ih
        | cons t ts => simp [joinSegs] at ih ⊢; exact ih

theorem splitSlash_no_slash {cs : List Char} (h : '/' ∉ cs) :
    splitSlash cs = [cs] := by
  induction cs with
  | nil => rfl
  | cons c cs ih =>
    simp only [List.mem_cons, not_or] at h
    simp only [splitSlash]
    rw [if_neg (fun hc => h.1 hc.symm), ih h.2]

theorem splitSlash_append_slash {a : List Char} (r : List Char) (h : '/' ∉ a) :
    splitSlash (a ++ '/' :: r) = a :: splitSlash r := by
  induction a with
  | nil => simp [splitSlash]
  | cons c cs ih =>
    simp only [List.mem_cons, not_or] at h
    have hstep : (c :: cs) ++ '/' :: r = c :: (cs ++ '/' :: r) := rfl
    rw [hstep]
    simp only [splitSlash]
    rw [if_neg (fun hc => h.1 hc.symm), ih h.2]

example : validPath "/" = true := by decide

example : validPath "/a/b" = true := by decide

example : validPath "/a/" = false := by decide

example : validPath "a/b" = false := by decide

example : validPath "/a//b" = false := by decide

theorem goodSeg_spec {s : List Char} (h : goodSeg s = true) :
    s ≠ [] ∧ '/' ∉ s := by
  simp only [goodSeg, Bool.and_eq_true, decide_eq_true_eq] at h
  exact ⟨h.1.1.1, h.1.1.2⟩

theorem map_data_mk (L : List (List Char)) :
    ((L.map (fun s => (⟨s⟩ : String))).map String.data) = L := by
  induction L with
  | nil => rfl
  | cons x xs ih => simpa using ih

theorem map_mk_data (L : List String) :
    ((L.map String.data).map (fun s => (⟨s⟩ : String))) = L := by
  induction L with
  | nil => rfl
  | cons x xs ih => simpa using ih

theorem splitSlash_joinSegs {ss : List (List Char)} (hne : ss ≠ [])
    (h : ∀ s ∈ ss, s ≠ [] ∧ '/' ∉ s) : splitSlash (joinSegs ss) = ss := by
  induction ss with
  | nil => exact absurd rfl hne
  | cons s ss ih =>
    cases ss with
    | nil =>
      simp only [joinSegs]
      exact splitSlash_no_slash (h s (by simp)).2
    | cons t ts =>
      have hj : joinSegs (s :: t :: ts) = s ++ '/' :: joinSegs (t :: ts) := rfl
      rw [hj, splitSlash_append_slash _ (h s (by simp)).2,
        ih (by simp) (fun u hu => h u (List.mem_cons_of_mem _ hu))]

theorem elems_pathOf {es : List String} (h : goodElems es = true) :
    elems (pathOf es) = es := by
  cases es with
  | nil => rfl
  | cons e es =>
    have hgood : ∀ s ∈ (e :: es).map String.data, s ≠ [] ∧ '/' ∉ s := by
      intro s hs
      simp only [List.mem_map] at hs
      obtain ⟨x, hx, rfl⟩ := hs
      simp only [goodElems, List.all_eq_true] at h
      exact goodSeg_spec (h x hx)
    show elems ⟨'/' :: joinSegs ((e :: es).map String.data)⟩ = e :: es
    unfold elems
    have hsplit : splitSlash ('/' :: joinSegs ((e :: es).map String.data)) =
        [] :: (e :: es).map String.data := by
      show ([] :: splitSlash (joinSegs ((e :: es).map String.data))) = _
      rw [splitSlash_joinSegs (by simp) hgood]
    rw [hsplit, List.filter_cons_of_neg (by simp),
      List.filter_eq_self.mpr (fun s hs => by simpa using (hgood s hs).1)]
    exact map_mk_data (e :: es)

theorem validPath_pathOf {es : List String} (h : goodElems es = true) :
    validPath (pathOf es) = true := by
  cases es with
  | nil => rfl
  | cons e es =>
    have hgood : ∀ s ∈ (e :: es).map String.data, s ≠ [] ∧ '/' ∉ s := by
      intro s hs
      simp only [List.mem_map] at hs
      obtain ⟨x, hx, rfl⟩ := hs
      simp only [goodElems, List.all_eq_true] at h
      exact goodSeg_spec (h x hx)
    show validPath ⟨'/' :: joinSegs ((e :: es).map String.data)⟩ = true
    unfold validPath
    simp only
    rw [splitSlash_joinSegs (by simp) hgood]
    simp only [Bool.and_eq_true, Bool.or_eq_true, decide_eq_true_eq,
      List.all_eq_true]
    refine ⟨trivial, Or.inr ?_⟩
    intro s hs
    simp only [List.mem_map] at hs
    obtain ⟨x, hx, rfl⟩ := hs
    simp only [goodElems, List.all_eq_true] at h
    exact h x hx

theorem validPath_decomp {p : String} (h : validPath p = true) :
    p = pathOf (elems p) ∧ goodElems (elems p) = true := by
  unfold validPath at h
  rcases hd : p.data with _ | ⟨c, rest⟩
  · rw [hd] at h; simp at h
  · rw [hd] at h
    simp only [Bool.and_eq_true, Bool.or_eq_true, decide_eq_true_eq,
      List.all_eq_true] at h
    obtain ⟨hc, hrest⟩ := h
    subst hc
    have hpe : p = ⟨'/' :: rest⟩ := by
      cases p with
      | mk d => exact congrArg String.mk hd
    rcases hrest with hnil | hall
    · subst hnil
      refine ⟨?_, ?_⟩ <;> rw [hpe] <;> rfl
    · have hsplit : splitSlash p.data = [] :: splitSlash rest := by
        rw [hd]; rfl
      have hne : ∀ s ∈ splitSlash rest, s ≠ [] ∧ '/' ∉ s :=
        fun s hs => goodSeg_spec (hall s hs)
      have helems : elems p = (splitSlash rest).map (fun s => ⟨s⟩) := by
        unfold elems
        rw [hsplit, List.filter_cons_of_neg (by simp),
          List.filter_eq_self.mpr (fun s hs => by simpa using (hne s hs).1)]
      refine ⟨?_, ?_⟩
      · rw [helems]
        unfold pathOf
        rw [map_data_mk, joinSegs_splitSlash]
        exact hpe
      · rw [helems]
        unfold goodElems
        simp only [List.all_eq_true]
        intro e he
        simp only [List.mem_map] at he
        obtain ⟨s, hs, rfl⟩ := he
        exact hall s hs

theorem joinSegs_append {A B : List (List Char)} (hA : A ≠ []) (hB : B ≠ []) :
    joinSegs (A ++ B) = joinSegs A ++ '/' :: joinSegs B := by
  induction A with
  | nil => exact absurd rfl hA
  | cons s A ih =>
    cases A with
    | nil =>
      cases B with
      | nil => exact absurd rfl hB
      | cons t ts => rfl
    | cons t ts =>
      have h1 : joinSegs ((s :: t :: ts) ++ B) =
          s ++ '/' :: joinSegs ((t :: ts) ++ B) := rfl
      have h2 : joinSegs (s :: t :: ts) = s ++ '/' :: joinSegs (t :: ts) := rfl
      rw [h1, h2, ih (by simp)]
      simp

theorem joinSegs_ne_nil {ss : List (List Char)} (hne : ss ≠ [])
    (h : ∀ s ∈ ss, s ≠ []) : joinSegs ss ≠ [] := by
  cases ss with
  | nil => exact absurd rfl hne
  | cons s ts =>
    cases ts with
    | nil => exact h s (by simp)
    | cons t ts =>
      show s ++ '/' :: joinSegs (t :: ts) ≠ []
      simp

theorem charsLess_self_append {x y : List Char} (hy : y ≠ []) :
    charsLess x (x ++ y) = true := by
  induction x with
  | nil =>
    cases y with
    | nil => exact absurd rfl hy
    | cons c cs => rfl
  | cons a as ih =>
    show charsLess (a :: as) (a :: (as ++ y)) = true
    unfold charsLess
    rw [if_neg (Nat.lt_irrefl _), if_neg (Nat.lt_irrefl _)]
    exact ih

theorem charsLess_asymm {x y : List Char} (h : charsLess x y = true) :
    charsLess y x = false := by
  induction x generalizing y with
  | nil =>
    cases y with
    | nil => simp [charsLess] at h
    | cons c cs => rfl
  | cons a as ih =>
    cases y with
    | nil => simp [charsLess] at h
    | cons b bs =>
      unfold charsLess at h ⊢
      by_cases h1 : a.toNat < b.toNat
      · rw [if_neg (Nat.lt_asymm h1), if_pos h1]
      · rw [if_neg h1] at h
        by_cases h2 : b.toNat < a.toNat
        · rw [if_pos h2] at h; exact absurd h (by simp)
        · rw [if_neg h2] at h
          rw [if_neg h2, if_neg h1]
          exact ih h

/-- A strict path-prefix is strictly below in Go string order. -/
theorem strLess_of_strict_pfx {a b : String} (hva : validPath a = true)
    (hvb : validPath b = true) (hp : hasPfx b a = true) (hne : a ≠ b) :
    strLess a b = true := by
  obtain ⟨hae, hag⟩ := validPath_decomp hva
  obtain ⟨hbe, hbg⟩ := validPath_decomp hvb
  unfold hasPfx at hp
  obtain ⟨rest, hrest⟩ := List.isPrefixOf_iff_prefix.mp hp
  have hrne : rest ≠ [] := by
    intro hr
    subst hr
    rw [List.append_nil] at hrest
    exact hne (by rw [hae, hbe, hrest])
  have hrgood : ∀ r ∈ rest, goodSeg r.data = true := by
    intro r hr
    simp only [goodElems, List.all_eq_true] at hbg
    exact hbg r (by rw [← hrest]; exact List.mem_append_right _ hr)
  rw [hae, hbe, ← hrest]
  unfold strLess pathOf
  show charsLess ('/' :: joinSegs ((elems a).map String.data))
      ('/' :: joinSegs (((elems a) ++ rest).map String.data)) = true
  unfold charsLess
  rw [if_neg (Nat.lt_irrefl _), if_neg (Nat.lt_irrefl _)]
  rw [List.map_append]
  have hRne : rest.map String.data ≠ [] := by
    intro hB
    rcases hr : rest with _ | ⟨r, rs⟩
    · exact hrne hr
    · rw [hr] at hB; simp at hB
  rcases hea : (elems a).map String.data with _ | ⟨s, ss⟩
  · simp only [List.nil_append]
    have hj : joinSegs ([] : List (List Char)) = [] := rfl
    rw [hj]
    have hjoin_ne : joinSegs (rest.map String.data) ≠ [] := by
      refine joinSegs_ne_nil hRne ?_
      intro s hs
      simp only [List.mem_map] at hs
      obtain ⟨r, hr, rfl⟩ := hs
      exact (goodSeg_spec (hrgood r hr)).1
    cases hjr : joinSegs (rest.map String.data) with
    | nil => exact absurd hjr hjoin_ne
    | cons c cs => rfl
  · rw [joinSegs_append (by simp) hRne]
    exact charsLess_self_append (by simp)

theorem getDirRest_zero_all (p : String) (ds : List Dir) :
    getDirRest p 0 zxAll ds = ds.filter notHidden := by
  induction ds with
  | nil => rfl
  | cons d rest ih =>
    by_cases hname : (dget d "name" == ".zx" || dget d "name" == ".#zx") = true
    · simp [getDirRest, zxAll, hname, notHidden, List.filter_cons]
      simpa [zxAll] using ih
    · simp only [Bool.not_eq_true] at hname
      simp [getDirRest, zxAll, hname, notHidden, List.filter_cons]
      simpa [zxAll] using ih

theorem getDirList_zero_all_of_ne_root {p : String} (hp : (p == "/") = false)
    (ds : List Dir) : getDirList p 0 zxAll ds = ds.filter notHidden := by
  induction ds with
  | nil => rfl
  | cons d rest ih =>
    by_cases hname : (dget d "name" == ".zx" || dget d "name" == ".#zx") = true
    · simp [getDirList, zxAll, hp, hname, notHidden, List.filter_cons]
      simpa [zxAll] using ih
    · simp only [Bool.not_eq_true] at hname
      simp [getDirList, zxAll, hp, hname, notHidden, List.filter_cons]
      simpa [zxAll] using ih

theorem getDirList_root_cons (d : Dir) (rest : List Dir) :
    getDirList "/" 0 zxAll (d :: rest) =
      ctldir :: (d :: rest).filter notHidden := by
  have : getDirList "/" 0 zxAll (d :: rest) =
      ctldir :: getDirRest "/" 0 zxAll (d :: rest) := by
    simp [getDirList, zxAll]
  rw [this, getDirRest_zero_all]

theorem getDirRest_sublist (p : String) (off count : Int) (ds : List Dir) :
    (getDirRest p off count ds).Sublist ds := by
  induction ds generalizing off count with
  | nil => simp [getDirRest]
  | cons d rest ih =>
    simp only [getDirRest]
    split
    · exact (ih _ _).cons d
    · split
      · simp
      · split
        · exact (ih _ _).cons d
        · exact (ih _ _).cons₂ d

theorem getDirList_sublist_of_ne_root {p : String} (hp : (p == "/") = false)
    (off count : Int) (ds : List Dir) :
    (getDirList p off count ds).Sublist ds := by
  induction ds generalizing off count with
  | nil => simp [getDirList]
  | cons d rest ih =>
    simp only [getDirList, hp, Bool.false_eq_true, if_false]
    split
    · exact (ih _ _).cons d
    · split
      · simp
      · split
        · exact (ih _ _).cons d
        · exact (ih _ _).cons₂ d

theorem getDirRest_length_le (p : String) (off count : Int)
    (hc : 0 ≤ count) (ds : List Dir) :
    (getDirRest p off count ds).length ≤ count.toNat := by
  induction ds generalizing off count with
  | nil => simp [getDirRest]
  | cons d rest ih =>
    simp only [getDirRest]
    split
    · exact ih _ _ hc
    · split
      · simp
      · rename_i hc0
        have hall : ¬count = zxAll := by simp only [zxAll]; omega
        rw [if_neg hall]
        split
        · exact le_trans (ih off (count - 1) (by omega)) (by omega)
        · simp only [List.length_cons]
          have := ih off (count - 1) (by omega)
          omega

theorem getDirList_length_le (p : String) (off count : Int)
    (hc : 0 ≤ count) (ds : List Dir) :
    (getDirList p off count ds).length ≤ count.toNat := by
  induction ds generalizing off count with
  | nil => simp [getDirList]
  | cons d rest ih =>
    simp only [getDirList]
    split
    · split
      · exact getDirRest_length_le _ _ _ hc _
      · exact ih _ _ hc
    · split
      · simp
      · rename_i hc0
        have hall : ¬count = zxAll := by simp only [zxAll]; omega
        rw [if_neg hall]
        split
        · simp only [List.length_cons]
          have := getDirRest_length_le p off (count - 1) (by omega) (d :: rest)
          omega
        · split
          · exact le_trans (ih off (count - 1) (by omega)) (by omega)
          · simp only [List.length_cons]
            have := ih off (count - 1) (by omega)
            omega

theorem goodElems_iff {es : List String} :
    goodElems es = true ↔ ∀ e ∈ es, goodSeg e.data = true := by
  simp [goodElems, List.all_eq_true]

theorem walk1_some {f : FNode} {e : String} {c : FNode}
    (h : walk1 f e = some c) : c ∈ f.kids ∧ c.name = e := by
  unfold walk1 at h
  refine ⟨List.mem_of_find?_eq_some h, ?_⟩
  have := List.find?_some h
  simpa using this

theorem wfKids_mem {pp : String} {c : FNode} : ∀ {kids : List FNode},
    wfKids pp kids = true → c ∈ kids →
    dget c.dir "path" = childPath pp (dget c.dir "name") ∧
      wfNode c = true := by
  intro kids
  induction kids with
  | nil =>
    intro _ hc
    simp at hc
  | cons k ks ih =>
    intro hw hc
    unfold wfKids at hw
    simp only [Bool.and_eq_true, beq_iff_eq] at hw
    rcases List.mem_cons.mp hc with rfl | hc2
    · exact ⟨hw.1.1, hw.1.2⟩
    · exact ih hw.2 hc2

theorem wf_child {f c : FNode} (hw : wfNode f = true) (hc : c ∈ f.kids) :
    dget c.dir "path" = childPath (dget f.dir "path") c.name ∧
      wfNode c = true := by
  cases f with
  | mk d del kids =>
    unfold wfNode at hw
    exact wfKids_mem hw hc

theorem resolve_wf_path : ∀ (els : List String) (f n : FNode),
    wfNode f = true → resolve f els = some n →
    wfNode n = true ∧ n.path = els.foldl childPath f.path := by
  intro els
  induction els with
  | nil =>
    intro f n hw h
    unfold resolve at h
    split at h
    · exact absurd h (by simp)
    · have hn : f = n := by simpa using h
      subst hn
      exact ⟨hw, rfl⟩
  | cons e rest ih =>
    intro f n hw h
    unfold resolve at h
    split at h
    · exact absurd h (by simp)
    · split at h
      · exact absurd h (by simp)
      · rename_i htyp
        cases hw1 : walk1 f e with
        | none => rw [hw1] at h; exact absurd h (by simp)
        | some c =>
          rw [hw1] at h
          obtain ⟨hmem, hname⟩ := walk1_some hw1
          obtain ⟨hcp, hcw⟩ := wf_child hw hmem
          obtain ⟨hnw, hnp⟩ := ih c n hcw h
          refine ⟨hnw, ?_⟩
          rw [hnp]
          simp only [List.foldl_cons]
          have hcpe : c.path = childPath f.path e := by
            show dget c.dir "path" = childPath (dget f.dir "path") e
            rw [hcp, hname]
          rw [hcpe]

theorem walk_resolved : ∀ (els : List String) (f n : FNode) (why : WalkFor)
    (nd : Dir) (now : String), resolve f els = some n →
    walk why nd now f els = terminalMode why n := by
  intro els
  induction els with
  | nil =>
    intro f n why nd now h
    unfold resolve at h
    split at h
    · exact absurd h (by simp)
    · rename_i hdel
      have hn : f = n := by simpa using h
      subst hn
      unfold walk
      rw [if_neg hdel]
      cases why <;> rfl
  | cons e rest ih =>
    intro f n why nd now h
    unfold resolve at h
    split at h
    · exact absurd h (by simp)
    · split at h
      · exact absurd h (by simp)
      · rename_i hdel htyp
        cases hw1 : walk1 f e with
        | none => rw [hw1] at h; exact absurd h (by simp)
        | some c =>
          rw [hw1] at h
          unfold walk
          rw [if_neg hdel, if_neg htyp, hw1]
          exact ih c n why nd now h

theorem walk_parent_ok : ∀ (init : List String) (lastE : String)
    (f par : FNode) (why : WalkFor) (nd : Dir) (now : String),
    (why = .forCreat ∨ why = .forCreatAll ∨ why = .forLink) →
    resolve f init = some par → (dget par.dir "type" == "d") = true →
    walk1 par lastE = none →
    walk why nd now f (init ++ [lastE]) = .ok par := by
  intro init
  induction init with
  | nil =>
    intro lastE f par why nd now hwhy hres htyp hw1
    unfold resolve at hres
    split at hres
    · exact absurd hres (by simp)
    · rename_i hdel
      have hfp : f = par := by simpa using hres
      subst hfp
      show walk why nd now f ([] ++ [lastE]) = .ok f
      simp only [List.nil_append]
      unfold walk
      rw [if_neg hdel, if_neg (by simp [htyp])]
      simp only [hw1]
      rw [if_neg (by simp), if_pos (by refine ⟨hwhy, ?_⟩; simp)]
  | cons e init ih =>
    intro lastE f par why nd now hwhy hres htyp hw1
    unfold resolve at hres
    split at hres
    · exact absurd hres (by simp)
    · split at hres
      · exact absurd hres (by simp)
      · rename_i hdel hdtyp
        cases hwc : walk1 f e with
        | none => rw [hwc] at hres; exact absurd hres (by simp)
        | some c =>
          rw [hwc] at hres
          show walk why nd now f ((e :: init) ++ [lastE]) = .ok par
          simp only [List.cons_append]
          unfold walk
          rw [if_neg hdel, if_neg hdtyp, hwc]
          exact ih lastE c par why nd now hwhy hres htyp hw1

theorem walk_forCreat_ne_exists : ∀ (els : List String) (f : FNode)
    (nd : Dir) (now : String),
    walk .forCreat nd now f els ≠ .error .alreadyExists := by
  intro els
  induction els with
  | nil =>
    intro f nd now
    unfold walk
    split <;> simp
  | cons e rest ih =>
    intro f nd now
    unfold walk
    split
    · simp
    · split
      · simp
      · cases hw1 : walk1 f e with
        | some c =>
          simp only [hw1]
          exact ih c nd now
        | none =>
          simp only [hw1]
          rw [if_neg (by simp)]
          split <;> simp

theorem walk_forCreat_ok_cases : ∀ (els : List String) (f r : FNode)
    (nd : Dir) (now : String), walk .forCreat nd now f els = .ok r →
    resolve f els = some r ∨
      ∃ init lastE, els = init ++ [lastE] ∧ resolve f init = some r := by
  intro els
  induction els with
  | nil =>
    intro f r nd now h
    unfold walk at h
    split at h
    · exact absurd h (by simp)
    · rename_i hdel
      have : f = r := by simpa using h
      subst this
      left
      unfold resolve
      rw [if_neg hdel]
  | cons e rest ih =>
    intro f r nd now h
    unfold walk at h
    split at h
    · exact absurd h (by simp)
    · split at h
      · exact absurd h (by simp)
      · rename_i hdel htyp
        cases hw1 : walk1 f e with
        | some c =>
          rw [hw1] at h
          rcases ih c r nd now h with hres | ⟨init, lastE, hels, hres⟩
          · left
            unfold resolve
            rw [if_neg hdel, if_neg htyp, hw1]
            exact hres
          · right
            refine ⟨e :: init, lastE, by rw [hels]; rfl, ?_⟩
            unfold resolve
            rw [if_neg hdel, if_neg htyp, hw1]
            exact hres
        | none =>
          simp only [hw1] at h
          rw [if_neg (by simp)] at h
          split at h
          · rename_i hrest
            have hfr : f = r := by simpa using h
            subst hfr
            right
            refine ⟨[], e, by rw [hrest.2]; simp, ?_⟩
            unfold resolve
            rw [if_neg hdel]
          · exact absurd h (by simp)

theorem str_ext {a b : String} (h : a.data = b.data) : a = b := by
  cases a
  cases b
  exact congrArg String.mk h

theorem append_data (a b : String) : (a ++ b).data = a.data ++ b.data := by
  cases a
  cases b
  rfl

theorem pathOf_ne_empty (es : List String) : pathOf es ≠ "" := by
  intro h
  have hd := congrArg String.data h
  simp only [pathOf] at hd
  exact absurd hd (by simp)

theorem pathOf_ne_root {es : List String} (hg : goodElems es = true)
    (hne : es ≠ []) : pathOf es ≠ "/" := by
  intro heq
  have hdata : ('/' :: joinSegs (es.map String.data)) = ['/'] :=
    congrArg String.data heq
  have hj : joinSegs (es.map String.data) = [] := by simpa using hdata
  refine joinSegs_ne_nil ?_ ?_ hj
  · simpa using hne
  · intro s hs
    simp only [List.mem_map] at hs
    obtain ⟨x, hx, rfl⟩ := hs
    exact (goodSeg_spec ((goodElems_iff.mp hg) x hx)).1

theorem childPath_pathOf {es : List String} (e : String)
    (hg : goodElems es = true) :
    childPath (pathOf es) e = pathOf (es ++ [e]) := by
  cases es with
  | nil =>
    show childPath "/" e = pathOf [e]
    unfold childPath
    rw [if_pos rfl]
    apply str_ext
    rw [append_data]
    rfl
  | cons x xs =>
    unfold childPath
    rw [if_neg (pathOf_ne_root hg (by simp))]
    apply str_ext
    rw [append_data, append_data]
    show (pathOf (x :: xs)).data ++ ['/'] ++ e.data = _
    unfold pathOf
    rw [List.map_append]
    rw [joinSegs_append (by simp) (by simp)]
    show ('/' :: joinSegs ((x :: xs).map String.data)) ++ ['/'] ++ e.data = _
    simp [joinSegs]

theorem foldl_childPath {es : List String} : ∀ (as : List String),
    goodElems (as ++ es) = true →
    es.foldl childPath (pathOf as) = pathOf (as ++ es) := by
  induction es with
  | nil => intro as h; simp
  | cons e rest ih =>
    intro as h
    simp only [List.foldl_cons]
    have hga : goodElems as = true := by
      rw [goodElems_iff]
      intro x hx
      exact (goodElems_iff.mp h) x (List.mem_append_left _ hx)
    rw [childPath_pathOf e hga]
    have hg2 : goodElems ((as ++ [e]) ++ rest) = true := by
      rw [goodElems_iff]
      intro x hx
      refine (goodElems_iff.mp h) x ?_
      simpa using hx
    have := ih (as ++ [e]) hg2
    simpa using this

theorem pathOf_inj {es fs : List String} (he : goodElems es = true)
    (hf : goodElems fs = true) (h : pathOf es = pathOf fs) : es = fs := by
  rw [← elems_pathOf he, ← elems_pathOf hf, h]

theorem goodElems_dropLast {es : List String} (h : goodElems es = true) :
    goodElems es.dropLast = true := by
  rw [goodElems_iff]
  intro x hx
  exact (goodElems_iff.mp h) x ((List.dropLast_sublist es).subset hx)

theorem validPath_goDirname {p : String} (h : validPath p = true) :
    validPath (goDirname p) = true := by
  unfold goDirname
  exact validPath_pathOf (goodElems_dropLast (validPath_decomp h).2)

theorem elems_goDirname {p : String} (h : validPath p = true) :
    elems (goDirname p) = (elems p).dropLast := by
  unfold goDirname
  exact elems_pathOf (goodElems_dropLast (validPath_decomp h).2)

theorem dget_ddel_self (d : Dir) (k : String) : dget (ddel d k) k = "" := by
  induction d with
  | nil => rfl
  | cons a d ih =>
    unfold ddel at ih ⊢
    rw [List.filter_cons]
    by_cases h : (a.1 == k) = true
    · rw [if_neg (by simp [h])]
      exact ih
    · rw [if_pos (by simp [h])]
      unfold dget
      rw [List.find?_cons_of_neg _ (by simp_all)]
      exact ih

theorem dget_ddel_ne (d : Dir) {k j : String} (h : k ≠ j) :
    dget (ddel d j) k = dget d k := by
  induction d with
  | nil => rfl
  | cons a d ih =>
    unfold ddel at ih ⊢
    rw [List.filter_cons]
    by_cases ha : (a.1 == j) = true
    · rw [if_neg (by simp [ha])]
      rw [ih]
      unfold dget
      rw [List.find?_cons_of_neg _ (by
        simp only [beq_iff_eq] at ha ⊢
        rw [ha]
        exact fun hc => h hc.symm)]
    · rw [if_pos (by simp [ha])]
      unfold dget
      rw [List.find?_cons, List.find?_cons]
      cases hak : (a.1 == k) with
      | true => rfl
      | false => exact ih

example : goDirname "/a/x" = "/a" := by decide

theorem useAbsPath_ok {p q : String} (h : useAbsPath p = .ok q) :
    q = p ∧ validPath p = true := by
  unfold useAbsPath at h
  split at h
  · rename_i hv
    exact ⟨by simpa using h.symm, hv⟩
  · exact absurd h (by simp)

theorem terminalMode_ok {why : WalkFor} {n f : FNode}
    (h : terminalMode why n = .ok f) : f = n := by
  cases why with
  | forPut =>
    by_cases ht : (dget n.dir "type" == "d") = true
    · have hput : terminalMode .forPut n = .error .isDir := by
        unfold terminalMode
        rw [if_pos ht]
      rw [hput] at h
      exact absurd h (by simp)
    · have hput : terminalMode .forPut n = .ok n := by
        unfold terminalMode
        rw [if_neg ht]
      rw [hput] at h
      exact (Except.ok.inj h).symm
  | forLink =>
    exact absurd (show Except.error Err.alreadyExists =
      Except.ok f from h) (by simp)
  | forStat => exact (Except.ok.inj (show Except.ok n = .ok f from h)).symm
  | forGet => exact (Except.ok.inj (show Except.ok n = .ok f from h)).symm
  | forDel => exact (Except.ok.inj (show Except.ok n = .ok f from h)).symm
  | forCreat => exact (Except.ok.inj (show Except.ok n = .ok f from h)).symm
  | forCreatAll =>
    exact (Except.ok.inj (show Except.ok n = .ok f from h)).symm

theorem dget_dropWuid (nd1 : Dir) :
    dget (if !(dget nd1 "wuid" == "") then ddel nd1 "wuid" else nd1)
      "wuid" = "" := by
  by_cases h : (dget nd1 "wuid" == "") = true
  · rw [if_neg (by simp [h])]
    exact eq_of_beq h
  · rw [if_pos (by simpa using h)]
    exact dget_ddel_self _ _

theorem dget_dropWuid_ne (nd1 : Dir) {k : String} (hk : k ≠ "wuid") :
    dget (if !(dget nd1 "wuid" == "") then ddel nd1 "wuid" else nd1) k =
      dget nd1 k := by
  by_cases h : (dget nd1 "wuid" == "") = true
  · rw [if_neg (by simp [h])]
  · rw [if_pos (by simpa using h)]
    exact dget_ddel_ne _ hk

theorem dget_wstatDelta_wuid (d nd : Dir) :
    dget (wstatDelta d nd) "wuid" = "" :=
  dget_dropWuid _

theorem dget_wstatDelta_size_dir {d : Dir} (nd : Dir)
    (htyp : (dget d "type" == "d") = true) :
    dget (wstatDelta d nd) "size" = "" := by
  have h1 : dget (wstatDelta d nd) "size" =
      dget (if dget d "type" == "d" then ddel nd "size" else nd) "size" :=
    dget_dropWuid_ne _ (by decide)
  rw [h1, if_pos htyp]
  exact dget_ddel_self _ _

theorem resolve_root_path {root n : FNode} {p : String}
    (hw : wfNode root = true) (hrp : root.path = "/")
    (hvp : validPath p = true)
    (hres : resolve root (elems p) = some n) : n.path = p := by
  obtain ⟨_, hnp⟩ := resolve_wf_path (elems p) root n hw hres
  have hg : goodElems ([] ++ elems p) = true := by
    simpa using (validPath_decomp hvp).2
  rw [hnp, hrp]
  have hroot : ("/" : String) = pathOf [] := rfl
  rw [hroot, foldl_childPath [] hg]
  simpa using (validPath_decomp hvp).1.symm

theorem resolve_parent_path {root r : FNode} {init : List String}
    (hw : wfNode root = true) (hrp : root.path = "/")
    (hg : goodElems init = true)
    (hres : resolve root init = some r) : r.path = pathOf init := by
  obtain ⟨_, hnp⟩ := resolve_wf_path init root r hw hres
  rw [hnp, hrp]
  have hroot : ("/" : String) = pathOf [] := rfl
  rw [hroot, foldl_childPath [] (by simpa using hg)]
  simp

/-- The `Exists` behavior of the `forCreat` walk followed by the
type check of `put` (zxc.go 933-937), characterized against plain path
resolution: the pipeline fails `Exists` exactly when the terminal
exists (resolves) with a type different from the put's type. -/
theorem putAfterWalk_exists_iff (root : FNode) (now p ty : String)
    (hw : wfNode root = true) (hrp : root.path = "/")
    (hvp : validPath p = true) (hty : ty ≠ "") :
    (putAfterWalk p ty (walk .forCreat [] now root (elems p)) =
        .error .alreadyExists ↔
      ∃ n, resolve root (elems p) = some n ∧ dget n.dir "type" ≠ ty) := by
  have hgood : goodElems (elems p) = true := (validPath_decomp hvp).2
  have hpp : p = pathOf (elems p) := (validPath_decomp hvp).1
  constructor
  · intro hE
    unfold putAfterWalk at hE
    split at hE
    · rename_i e heq
      have he : e = .alreadyExists := by simpa using hE
      rw [he] at heq
      exact absurd heq (walk_forCreat_ne_exists (elems p) root [] now)
    · rename_i f heq
      split at hE
      · rename_i hcond
        simp only [Bool.and_eq_true, beq_iff_eq, Bool.not_eq_true',
          beq_eq_false_iff_ne] at hcond
        obtain ⟨⟨hpath, _⟩, htne⟩ := hcond
        rcases walk_forCreat_ok_cases (elems p) root f [] now heq with
          hres | ⟨init, lastE, hels, hresInit⟩
        · exact ⟨f, hres, htne⟩
        · -- the walk returned the parent: its path cannot equal p
          have hginit : goodElems init = true := by
            rw [goodElems_iff]
            intro x hx
            refine goodElems_iff.mp hgood x ?_
            rw [hels]
            exact List.mem_append_left _ hx
          have hfp : f.path = pathOf init :=
            resolve_parent_path hw hrp hginit hresInit
          have hpe : pathOf init = pathOf (init ++ [lastE]) := by
            rw [← hfp]
            show dget f.dir "path" = _
            rw [hpath, hpp, hels]
          have := pathOf_inj hginit (by rw [← hels]; exact hgood) hpe
          have hlen := congrArg List.length this
          simp at hlen
      · exact absurd hE (by simp)
  · intro ⟨n, hres, hneq⟩
    have hwalk : walk .forCreat [] now root (elems p) = .ok n := by
      rw [walk_resolved (elems p) root n .forCreat [] now hres]
      rfl
    unfold putAfterWalk
    rw [hwalk]
    have hpath : (dget n.dir "path" == p) = true := by
      have := resolve_root_path hw hrp hvp hres
      simpa using this
    have h2 : (!(ty == "")) = true := by simpa using hty
    have h3 : (!(dget n.dir "type" == ty)) = true := by simpa using hneq
    simp only [hpath, h2, h3, Bool.and_self, Bool.true_and, if_true]

/-! ## Claim theorems -/

/-- **C7**: when a remote metadata or directory-data fetch fails with an
I/O error while redial is enabled (and, for directory data, the node
holds old data), the walk retains the stale cached view, signals the
syncer to redial, and proceeds without surfacing the error; every
non-I/O fetch error fails the walk with that error, and a NotExist
error tombstones the node. -/
theorem C7_walk_fetch_errors :
    (∀ e : Err, e.isIO = true →
      getMeta true (.error e) = (.ok (), .keep, true) ∧
      getDirData true true (.error e) = (.ok (), .keep, true)) ∧
    (∀ (e : Err) (rok oldOk : Bool), e.isIO = false →
      getMeta rok (.error e) =
        (.error e, if e.isNotExist then NodeEff.tomb else .keep, false) ∧
      getDirData rok oldOk (.error e) =
        (.error e, if e.isNotExist then NodeEff.tomb else .keep, false)) := by
  constructor
  · intro e he
    cases e <;> simp_all [getMeta, getDirData, Err.isIO]
  · intro e rok oldOk he
    cases e <;> simp_all [getMeta, getDirData, Err.isIO, Err.isNotExist]

/-- Witness for C7 at concrete errors: an I/O failure with redial keeps
the node and signals redial; a NotExist failure tombstones. -/
theorem C7_walk_fetch_errors_witness :
    (getMeta true (.error .io) = (.ok (), .keep, true) ∧
      getDirData true true (.error .io) = (.ok (), .keep, true)) ∧
    (getMeta true (.error .notExist) = (.error .notExist,
        if Err.isNotExist .notExist then NodeEff.tomb else .keep, false) ∧
      getDirData true true (.error .notExist) = (.error .notExist,
        if Err.isNotExist .notExist then NodeEff.tomb else .keep, false)) :=
  ⟨C7_walk_fetch_errors.1 .io (by decide),
   C7_walk_fetch_errors.2 .notExist true true (by decide)⟩

/-- **C9**: with `sPrefix ≠ dPrefix`, the find rewrite (applied at the
root and to each visited child entry) maps a path with path-prefix
`sPrefix` to `join(dPrefix, suffix(path, sPrefix))` — the elements of
`dPrefix` followed by the elements of the path after those of
`sPrefix` — and fails with the not-a-suffix (BadPath) error exactly
when `sPrefix` is not a path-prefix of the path. -/
theorem C9_find_suffix_rewrite (spref dpref path : String)
    (hvp : validPath path = true) (hne : spref ≠ dpref) :
    (hasPfx path spref = true →
      findRootRewrite spref dpref path =
        .ok (pathOf (elems dpref ++
          (elems path).drop (elems spref).length)) ∧
      findrChildRewrite spref dpref path =
        .ok (pathOf (elems dpref ++
          (elems path).drop (elems spref).length))) ∧
    (hasPfx path spref = false →
      findRootRewrite spref dpref path = .error .notSuffix ∧
      findrChildRewrite spref dpref path = .error .notSuffix) := by
  have hbne : (spref == dpref) = false := by simp [hne]
  constructor
  · intro hp
    have hgrest : goodElems
        ((elems path).drop (elems spref).length) = true := by
      rw [goodElems_iff]
      intro x hx
      exact goodElems_iff.mp (validPath_decomp hvp).2 x
        (List.mem_of_mem_drop hx)
    have hsuffix : zxSuffix path spref =
        pathOf ((elems path).drop (elems spref).length) := by
      unfold zxSuffix
      rw [if_pos hp]
    have hne2 : (zxSuffix path spref == "") = false := by
      rw [hsuffix]
      simp [pathOf_ne_empty]
    have hjoin : goJoin dpref (zxSuffix path spref) =
        pathOf (elems dpref ++ (elems path).drop (elems spref).length) := by
      rw [hsuffix]
      unfold goJoin
      rw [elems_pathOf hgrest]
    constructor
    · unfold findRootRewrite
      simp only [hbne, Bool.not_false, if_true, hne2, Bool.false_eq_true,
        if_false, hjoin]
    · unfold findrChildRewrite
      simp only [hbne, Bool.not_false, if_true, hne2, Bool.false_eq_true,
        if_false, hjoin]
  · intro hp
    have hsuffix : zxSuffix path spref = "" := by
      unfold zxSuffix
      rw [if_neg (by simp [hp])]
    constructor
    · unfold findRootRewrite
      simp [hbne, hsuffix]
    · unfold findrChildRewrite
      simp [hbne, hsuffix]

/-- Witness for C9 at a concrete rewrite: `/a/c` under `sPrefix = /a`,
`dPrefix = /b`. -/
theorem C9_find_suffix_rewrite_witness :
    findRootRewrite "/a" "/b" "/a/c" =
      .ok (pathOf (elems "/b" ++ (elems "/a/c").drop (elems "/a").length)) ∧
    findrChildRewrite "/a" "/b" "/a/c" =
      .ok (pathOf (elems "/b" ++ (elems "/a/c").drop (elems "/a").length)) :=
  (C9_find_suffix_rewrite "/a" "/b" "/a/c" (by decide) (by decide)).1
    (by decide)

/-- **C3** (the claim is right, the code is wrong): the helper
`inconsistentLink(oldp, newp)` checks, per its own comment and
parameter names, that `oldp` is a prefix of `newp`; but `link(to,
from)` calls it as `inconsistentLink(from, to)` with the arguments
swapped.  At `Link(to = /a, from = /a/b)` — a back-link into the
parent, which the claim says fails `BadPath` — the prefix check does
not fire and the operation fails later with NotExist; conversely
`Link(to = /a/b, from = /a)`, which the claim says is not rejected, is
rejected as an inconsistent link. -/
theorem C3_link_prefix_check :
    (link true linkEnvA "/a" "/a/b").1 = .error .notExist ∧
    Err.kind .notExist ≠ ErrKind.badPathK ∧
    inconsistentLink "/a" "/a/b" = true ∧
    (link true linkEnvA "/a/b" "/a").1 = .error .inconsistentLink := by
  refine ⟨?_, by decide, by decide, ?_⟩ <;> rfl

/-- **C4** (the claim is right, the code is wrong): `link` stats
`toels := zx.Elems(from)` — the target path, not the source `to` — so
the `forStat` walk and the `forLink` walk run on the same path `from`
and contradict each other: the remote link is never forwarded, for any
cache view and any arguments; in particular `Link(to = /a, from = /b)`
with `/a` existing and `/b` absent fails NotExist instead of
linking. -/
theorem C4_link_stats_target :
    (∀ (lok : Bool) (env : LinkEnv) (toP fromP : String),
      remoteLinks (link lok env toP fromP).2 = []) ∧
    (link true linkEnvA "/a" "/b").1 = .error .notExist := by
  constructor
  · intro lok env toP fromP
    unfold link
    repeat' split
    all_goals simp_all [remoteLinks]
  · rfl

theorem getDirRest_mem_notHidden (p : String) :
    ∀ (ds : List Dir) (off count : Int) (e : Dir),
    e ∈ getDirRest p off count ds → notHidden e = true := by
  intro ds
  induction ds with
  | nil =>
    intro off count e he
    simp [getDirRest] at he
  | cons d rest ih =>
    intro off count e he
    by_cases hoff : (0 : Int) < off
    · rw [show getDirRest p off count (d :: rest) =
        getDirRest p (off - 1) count rest from by
          simp [getDirRest, hoff]] at he
      exact ih _ _ _ he
    · by_cases hcnt : count = 0
      · rw [show getDirRest p off count (d :: rest) = [] from by
          simp [getDirRest, hoff, hcnt]] at he
        simp at he
      · by_cases hname :
          (dget d "name" == ".zx" || dget d "name" == ".#zx") = true
        · rw [show getDirRest p off count (d :: rest) = getDirRest p off
            (if count = zxAll then count else count - 1) rest from by
              simp [getDirRest, hoff, hcnt, hname]] at he
          exact ih _ _ _ he
        · rw [show getDirRest p off count (d :: rest) = d :: getDirRest p off
            (if count = zxAll then count else count - 1) rest from by
              simp [getDirRest, hoff, hcnt, hname]] at he
          rcases List.mem_cons.mp he with rfl | he2
          · have hn : (dget e "name" == ".zx" || dget e "name" == ".#zx") =
                false := by simpa using hname
            simp [notHidden, hn]
          · exact ih _ _ _ he2

theorem getDirList_mem_ctl_or_natural (p : String) :
    ∀ (ds : List Dir) (off count : Int) (e : Dir),
    e ∈ getDirList p off count ds → e = ctldir ∨ notHidden e = true := by
  intro ds
  induction ds with
  | nil =>
    intro off count e he
    simp [getDirList] at he
  | cons d rest ih =>
    intro off count e he
    by_cases hoff : (0 : Int) < off
    · by_cases hroot : (p == "/") = true
      · rw [show getDirList p off count (d :: rest) =
          getDirRest p (off - 1) count (d :: rest) from by
            simp [getDirList, hoff, hroot]] at he
        exact Or.inr (getDirRest_mem_notHidden p _ _ _ _ he)
      · rw [show getDirList p off count (d :: rest) =
          getDirList p (off - 1) count rest from by
            simp [getDirList, hoff, hroot]] at he
        exact ih _ _ _ he
    · by_cases hcnt : count = 0
      · rw [show getDirList p off count (d :: rest) = [] from by
          simp [getDirList, hoff, hcnt]] at he
        simp at he
      · by_cases hroot : (p == "/") = true
        · rw [show getDirList p off count (d :: rest) = ctldir ::
            getDirRest p off (if count = zxAll then count else count - 1)
              (d :: rest) from by
                simp [getDirList, hoff, hcnt, hroot]] at he
          rcases List.mem_cons.mp he with rfl | he2
          · exact Or.inl rfl
          · exact Or.inr (getDirRest_mem_notHidden p _ _ _ _ he2)
        · by_cases hname :
            (dget d "name" == ".zx" || dget d "name" == ".#zx") = true
          · rw [show getDirList p off count (d :: rest) = getDirList p off
              (if count = zxAll then count else count - 1) rest from by
                simp [getDirList, hoff, hcnt, hroot, hname]] at he
            exact ih _ _ _ he
          · rw [show getDirList p off count (d :: rest) = d :: getDirList p
              off (if count = zxAll then count else count - 1) rest from by
                simp [getDirList, hoff, hcnt, hroot, hname]] at he
            rcases List.mem_cons.mp he with rfl | he2
            · refine Or.inr ?_
              have hn : (dget e "name" == ".zx" || dget e "name" == ".#zx") =
                  false := by simpa using hname
              simp [notHidden, hn]
            · exact ih _ _ _ he2

/-- **C5** (amended): the listing loop of `get` on a directory accounts
for the synthetic `/Ctl` entry exactly once, before the natural
entries, when `p` is the root *and the natural listing is nonempty*:
with `off > 0` the entry is counted against `off` — the loop continues
as the never-injecting loop (`getDirRest`) with `off - 1` over the same
natural entries; with `off ≤ 0` and `count ≠ 0` it is emitted first,
counting against `count`, followed by a subsequence of the natural
entries; with `off ≤ 0` and `count = 0` nothing at all is emitted (and
an empty root listing also emits nothing, including no `/Ctl`).  The
continuation `getDirRest` only ever emits natural entries, so the
injection happens at most once; for a non-root `p` the output is a
subsequence of the natural entries (nothing is injected); every emitted
entry is the injected `/Ctl` or a natural entry not named
`.zx`/`.#zx`; at most `count` entries are emitted when `count ≥ 0`
(`All = -1` meaning no limit); and `Get("/", 0, All)` over natural
entries `a`, `b` yields `/Ctl`, `a`, `b` in that order. -/
theorem C5_getdir_listing :
    (∀ (off count : Int) (d : Dir) (rest : List Dir), 0 < off →
      getDirList "/" off count (d :: rest) =
        getDirRest "/" (off - 1) count (d :: rest)) ∧
    (∀ (off count : Int) (d : Dir) (rest : List Dir), off ≤ 0 →
      count ≠ 0 →
      getDirList "/" off count (d :: rest) =
        ctldir :: getDirRest "/" off
          (if count = zxAll then count else count - 1) (d :: rest)) ∧
    (∀ (off : Int) (d : Dir) (rest : List Dir), off ≤ 0 →
      getDirList "/" off 0 (d :: rest) = []) ∧
    (∀ (p : String) (off count : Int) (ds : List Dir),
      (getDirRest p off count ds).Sublist ds) ∧
    (∀ (d : Dir) (rest : List Dir), getDirList "/" 0 zxAll (d :: rest) =
      ctldir :: (d :: rest).filter notHidden) ∧
    (∀ (p : String) (off count : Int) (ds : List Dir),
      (p == "/") = false → (getDirList p off count ds).Sublist ds) ∧
    (∀ (p : String) (off count : Int) (ds : List Dir) (e : Dir),
      e ∈ getDirList p off count ds → e = ctldir ∨ notHidden e = true) ∧
    (∀ (p : String) (off count : Int) (ds : List Dir), 0 ≤ count →
      (getDirList p off count ds).length ≤ count.toNat) ∧
    getDirList "/" 0 zxAll [dirA, dirB] = [ctldir, dirA, dirB] := by
  refine ⟨?_, ?_, ?_, getDirRest_sublist, getDirList_root_cons, ?_, ?_, ?_,
    by decide⟩
  · intro off count d rest hoff
    simp [getDirList, hoff]
  · intro off count d rest hoff hcnt
    have hoff2 : ¬(0 : Int) < off := by omega
    simp [getDirList, hoff2, hcnt]
  · intro off d rest hoff
    have hoff2 : ¬(0 : Int) < off := by omega
    simp [getDirList, hoff2]
  · intro p off count ds hp
    exact getDirList_sublist_of_ne_root hp off count ds
  · intro p off count ds e he
    exact getDirList_mem_ctl_or_natural p ds off count e he
  · intro p off count ds hc
    exact getDirList_length_le p off count hc ds

/-- Counterexample to C5 as stated: on an empty root listing,
`Get("/", 0, All)` emits nothing at all — the synthetic `/Ctl` entry is
not injected even though `p` is the root. -/
theorem C5_empty_root_no_ctl :
    getDirList "/" 0 zxAll [] = [] ∧ ctldir ∉ getDirList "/" 0 zxAll [] :=
  ⟨rfl, by simp [getDirList]⟩

/-- Witness for C5's conditional conjuncts at concrete inputs: the
`/Ctl` entry consumed against `off = 1`; the emission with `count = 3`
decremented; the `count = 0` cutoff; a non-root subsequence; and the
length bound. -/
theorem C5_getdir_listing_witness :
    getDirList "/" 1 zxAll [dirA] = getDirRest "/" (1 - 1) zxAll [dirA] ∧
    getDirList "/" 0 3 [dirA] =
      ctldir :: getDirRest "/" 0
        (if (3 : Int) = zxAll then 3 else 3 - 1) [dirA] ∧
    getDirList "/" 0 0 [dirA] = [] ∧
    (getDirList "/x" 1 2 [dirA]).Sublist [dirA] ∧
    (dirA = ctldir ∨ notHidden dirA = true) ∧
    (getDirList "/x" 0 1 [dirA, dirB]).length ≤ (1 : Int).toNat :=
  ⟨C5_getdir_listing.1 1 zxAll dirA [] (by decide),
   C5_getdir_listing.2.1 0 3 dirA [] (by decide) (by decide),
   C5_getdir_listing.2.2.1 0 dirA [] (by decide),
   C5_getdir_listing.2.2.2.2.2.1 "/x" 1 2 [dirA] (by decide),
   C5_getdir_listing.2.2.2.2.2.2.1 "/" 0 zxAll [dirA, dirB] dirA
     (by decide),
   C5_getdir_listing.2.2.2.2.2.2.2.1 "/x" 0 1 [dirA, dirB] (by decide)⟩

/-- **C8** (amended): for `p` not one of the reserved paths `/` (which
fails `IsDir` before classification) and `/Ctl` (a control write), a
`Put(p, d)` with `d.type` equal to `-` or `d` walks in Creat mode and
fails with the `Exists` kind exactly when `p` resolves in the cache to
an entry whose type differs from `d.type`; and a `Put` whose `d.type`
is none of `""`, `-`, `d`, `D`, `F` fails with the bad-file-type error
for every cache, before any walk. -/
theorem C8_put_creat_exists :
    (∀ (root : FNode) (now p : String) (d0 : Dir),
      wfNode root = true → root.path = "/" → validPath p = true →
      (p == "/") = false → (p == "/Ctl") = false →
      (dget d0 "type" = "-" ∨ dget d0 "type" = "d") →
      (put root now p d0 = .error .alreadyExists ↔
        ∃ n, resolve root (elems p) = some n ∧
          dget n.dir "type" ≠ dget d0 "type")) ∧
    (∀ (root : FNode) (now p : String) (d0 : Dir),
      validPath p = true → (p == "/") = false → (p == "/Ctl") = false →
      dget d0 "type" ≠ "" → dget d0 "type" ≠ "-" → dget d0 "type" ≠ "d" →
      dget d0 "type" ≠ "D" → dget d0 "type" ≠ "F" →
      put root now p d0 = .error .badFileType) := by
  constructor
  · intro root now p d0 hw hrp hvp h1 h2 hty
    have h1p : ¬(p = "/") := by simpa using h1
    have h2p : ¬(p = "/Ctl") := by simpa using h2
    have hdisp : put root now p d0 =
        putAfterWalk p (dget d0 "type")
          (walk .forCreat [] now root (elems p)) := by
      rcases hty with h | h <;>
        · unfold put
          simp [useAbsPath, hvp, h1p, h2p, h]
    rw [hdisp]
    exact putAfterWalk_exists_iff root now p (dget d0 "type") hw hrp hvp
      (by rcases hty with h | h <;> simp [h])
  · intro root now p d0 hvp h1 h2 he hm hd hD hF
    have h1p : ¬(p = "/") := by simpa using h1
    have h2p : ¬(p = "/Ctl") := by simpa using h2
    unfold put
    simp only [useAbsPath, hvp, if_true, reduceIte, h1p, h2p,
      decide_eq_true_eq]
    split <;> simp_all

/-- Counterexample to C8 as stated: `Put("/", {type:-})` has a terminal
that exists (`/`, a directory) with a type different from `-`, yet it
fails `IsDir`, not `Exists` — the root is rejected before
classification; and `Put("/Ctl", {type:x})`, whose type is not one of
the five discriminators, succeeds as a control write instead of
failing with bad-file-type. -/
theorem C8_reserved_paths :
    put treeRootOnly "t0" "/" [("type", "-")] = .error .isDir ∧
    Err.kind .isDir ≠ ErrKind.existsK ∧
    dget rootDir "type" ≠ "-" ∧
    put treeRootOnly "t0" "/Ctl" [("type", "x")] = .ok () :=
  ⟨rfl, by decide, by decide, rfl⟩

/-- Witness for C8 at the concrete cache `treeD`: `Put("/d", {type:-})`
hits the existing directory `/d` and fails `Exists`; a put with type
`x` fails bad-file-type. -/
theorem C8_put_creat_exists_witness :
    put treeD "t0" "/d" [("type", "-")] = .error .alreadyExists ∧
    put treeD "t0" "/x" [("type", "x")] = .error .badFileType :=
  ⟨(C8_put_creat_exists.1 treeD "t0" "/d" [("type", "-")] rfl rfl
      (by decide) (by decide) (by decide) (Or.inl rfl)).mpr
    ⟨.mk dDir false [], rfl, by decide⟩,
   C8_put_creat_exists.2 treeD "t0" "/x" [("type", "x")] (by decide)
    (by decide) (by decide) (by decide) (by decide) (by decide) (by decide)
    (by decide)⟩

/-- **C1** (amended): when `Move(from, to)` reaches the final pair of
parent locks (all its walks succeeding) with distinct parents
`A = dirname(from)` and `B = dirname(to)`, the order is decided by the
Go string comparison of the two parent paths alone, before any of the
pair of locks is taken: the lexicographically greater parent is locked
first.  In particular, when `A` is a strict path-prefix of `B` (so
`A < B` as strings), `B` — the deeper path — is locked *before* `A`,
the reverse of the order the claim states; the walker returns its
terminal locked, so the inner path must be walked first. -/
theorem C1_move_lock_order (env : MoveEnv) (fromP toP q : String)
    (hvf : validPath fromP = true) (hvt : validPath toP = true)
    (hne : (fromP == toP) = false)
    (hf : (fromP == "/Ctl" || fromP == "/") = false)
    (ht : (toP == "/Ctl" || toP == "/") = false)
    (him : inconsistentMove fromP toP = false)
    (hwd : env.wdel = none) (hwc : env.wcreat = .ok q)
    (hws : ∀ s, env.wstatp s = none)
    (hAB : goDirname fromP ≠ goDirname toP) :
    lockSeq (move true env fromP toP).2 =
      (if strLess (goDirname toP) (goDirname fromP) then
        [goDirname fromP, goDirname toP]
      else [goDirname toP, goDirname fromP]) ∧
    (hasPfx (goDirname toP) (goDirname fromP) = true →
      lockSeq (move true env fromP toP).2 =
        [goDirname toP, goDirname fromP]) := by
  have hab : (goDirname fromP == goDirname toP) = false := by simp [hAB]
  have hmain : lockSeq (move true env fromP toP).2 =
      (if strLess (goDirname toP) (goDirname fromP) then
        [goDirname fromP, goDirname toP]
      else [goDirname toP, goDirname fromP]) := by
    cases hrem : env.remote with
    | none =>
      by_cases hlt : strLess (goDirname toP) (goDirname fromP) = true
      · rw [if_pos hlt]
        unfold move moveFinish
        simp [useAbsPath, hvf, hvt, hne, hf, ht, him, hwd, hwc, hws, hab,
          hlt, hrem, lockSeq]
      · rw [if_neg hlt]
        unfold move moveFinish
        simp [useAbsPath, hvf, hvt, hne, hf, ht, him, hwd, hwc, hws, hab,
          hlt, hrem, lockSeq]
    | some e =>
      by_cases hlt : strLess (goDirname toP) (goDirname fromP) = true
      · rw [if_pos hlt]
        unfold move moveFinish
        simp [useAbsPath, hvf, hvt, hne, hf, ht, him, hwd, hwc, hws, hab,
          hlt, hrem, lockSeq]
      · rw [if_neg hlt]
        unfold move moveFinish
        simp [useAbsPath, hvf, hvt, hne, hf, ht, him, hwd, hwc, hws, hab,
          hlt, hrem, lockSeq]
  refine ⟨hmain, ?_⟩
  intro hpfx
  have hA := validPath_goDirname hvf
  have hB := validPath_goDirname hvt
  have hlt : strLess (goDirname fromP) (goDirname toP) = true :=
    strLess_of_strict_pfx hA hB hpfx hAB
  have hlt2 : strLess (goDirname toP) (goDirname fromP) = false := by
    unfold strLess at hlt ⊢
    exact charsLess_asymm hlt
  rw [hmain, if_neg (by simp [hlt2])]

/-- Counterexample to C1 as stated: for `Move("/a/x", "/a/b/y")` the
parent `A = /a` is a strict path-prefix of `B = /a/b`, yet the locks
are acquired as `B` then `A`, not `A` then `B`. -/
theorem C1_pfx_locks_deeper_first :
    goDirname "/a/x" = "/a" ∧ goDirname "/a/b/y" = "/a/b" ∧
    hasPfx "/a/b" "/a" = true ∧ "/a" ≠ "/a/b" ∧
    lockSeq (move true envAllOk "/a/x" "/a/b/y").2 = ["/a/b", "/a"] ∧
    lockSeq (move true envAllOk "/a/x" "/a/b/y").2 ≠ ["/a", "/a/b"] := by
  refine ⟨by decide, by decide, by decide, by decide, ?_, ?_⟩ <;> decide

/-- Witness for C1 at `Move("/a/x", "/a/b/y")` with all walks
succeeding. -/
theorem C1_move_lock_order_witness :
    lockSeq (move true envAllOk "/a/x" "/a/b/y").2 =
      (if strLess (goDirname "/a/b/y") (goDirname "/a/x") then
        [goDirname "/a/x", goDirname "/a/b/y"]
      else [goDirname "/a/b/y", goDirname "/a/x"]) ∧
    (hasPfx (goDirname "/a/b/y") (goDirname "/a/x") = true →
      lockSeq (move true envAllOk "/a/x" "/a/b/y").2 =
        [goDirname "/a/b/y", goDirname "/a/x"]) :=
  C1_move_lock_order envAllOk "/a/x" "/a/b/y" "/a/b/y" (by decide)
    (by decide) (by decide) (by decide) (by decide) (by decide) rfl rfl
    (fun _ => rfl) (by decide)

/-- **C2** (amended): for valid absolute paths with `from` a strict
path-prefix of `to` and `from` not one of the reserved paths `/` and
`/Ctl` (which are rejected `Perm` earlier in the pipeline), and a
remote supporting move, `Move(from, to)` fails with the
`inconsistent move` error of kind BadPath before any sync, walk, lock,
invalidation or remote call: the event trace is empty. -/
theorem C2_move_strict_pfx (env : MoveEnv) (fromP toP : String)
    (hvf : validPath fromP = true) (hvt : validPath toP = true)
    (hpfx : hasPfx toP fromP = true) (hne : fromP ≠ toP)
    (hnr : fromP ≠ "/") (hnc : fromP ≠ "/Ctl") :
    move true env fromP toP = (.error .inconsistentMove, []) ∧
    Err.kind .inconsistentMove = .badPathK := by
  refine ⟨?_, rfl⟩
  obtain ⟨hfe, hfg⟩ := validPath_decomp hvf
  obtain ⟨hte, htg⟩ := validPath_decomp hvt
  obtain ⟨rest, hrest⟩ := List.isPrefixOf_iff_prefix.mp hpfx
  have hrne : rest ≠ [] := by
    intro hr
    exact hne (by rw [hfe, hte, ← hrest, hr, List.append_nil])
  have htnr : toP ≠ "/" := by
    intro h
    rw [h] at hrest
    have h0 : elems "/" = [] := rfl
    rw [h0] at hrest
    exact hrne (List.append_eq_nil.mp hrest).2
  have htnc : toP ≠ "/Ctl" := by
    intro h
    rw [h] at hrest
    have h0 : elems "/Ctl" = ["Ctl"] := rfl
    rw [h0] at hrest
    cases hef : elems fromP with
    | nil => exact hnr (by rw [hfe, hef]; rfl)
    | cons x xs =>
      rw [hef] at hrest
      have hlen : xs.length + 1 + rest.length = 1 := by
        simpa [List.length_append, Nat.add_comm, Nat.add_assoc,
          Nat.add_left_comm] using congrArg List.length hrest
      have hr1 : 0 < rest.length := List.length_pos.mpr hrne
      omega
  have b1 : (fromP == toP) = false := by simp [hne]
  have b2 : (fromP == "/Ctl" || fromP == "/") = false := by simp [hnc, hnr]
  have b3 : (toP == "/Ctl" || toP == "/") = false := by simp [htnc, htnr]
  have b4 : inconsistentMove fromP toP = true := by
    unfold inconsistentMove
    rw [if_neg (by simp [hne])]
    exact hpfx
  unfold move
  simp [useAbsPath, hvf, hvt, b1, b2, b3, b4]

/-- Counterexample to C2 as stated: `from = /` is a valid strict
path-prefix of `to = /a`, yet `Move("/", "/a")` fails with `Perm`
(the reserved-path rejection), not with the BadPath kind. -/
theorem C2_root_pfx_perm :
    move true envAllOk "/" "/a" = (.error .perm, []) ∧
    Err.kind .perm ≠ ErrKind.badPathK ∧
    hasPfx "/a" "/" = true ∧ "/" ≠ "/a" :=
  ⟨rfl, by decide, by decide, by decide⟩

/-- Witness for C2 at `Move("/a", "/a/b")`. -/
theorem C2_move_strict_pfx_witness :
    move true envAllOk "/a" "/a/b" = (.error .inconsistentMove, []) ∧
    Err.kind .inconsistentMove = .badPathK :=
  C2_move_strict_pfx envAllOk "/a" "/a/b" (by decide) (by decide) (by decide)
    (by decide) (by decide) (by decide)

/-- **C6** (amended): in `Wstat(p, nd)` the `wuid` key is always
dropped from the delta before it is applied, and on a directory the
`size` key of the applied delta is always empty; but a Wstat on a
directory whose delta carries a nonempty `size` does not succeed with
the size ignored: the walk runs in Put mode and fails with `IsDir`
before the size-drop is reached. -/
theorem C6_wstat_forbidden_keys :
    (∀ (root n : FNode) (now p : String) (nd : Dir),
      validPath p = true → (p == "/Ctl") = false →
      (dget nd "size" == "") = false →
      resolve root (elems p) = some n →
      (dget n.dir "type" == "d") = true →
      wstat root now p nd = .error .isDir) ∧
    (∀ (root : FNode) (now p : String) (nd d' delta : Dir),
      (p == "/Ctl") = false →
      wstat root now p nd = .ok (d', delta) →
      dget delta "wuid" = "") ∧
    (∀ (root n : FNode) (now p : String) (nd d' delta : Dir),
      validPath p = true → (p == "/Ctl") = false →
      resolve root (elems p) = some n →
      (dget n.dir "type" == "d") = true →
      wstat root now p nd = .ok (d', delta) →
      dget delta "size" = "") := by
  refine ⟨?_, ?_, ?_⟩
  · intro root n now p nd hv hp hsz hres htyp
    have hp2 : ¬(p = "/Ctl") := by simpa using hp
    have hsz2 : ¬(dget nd "size" = "") := by simpa using hsz
    have hwalk : walk .forPut [] now root (elems p) = .error .isDir := by
      rw [walk_resolved (elems p) root n .forPut [] now hres]
      unfold terminalMode
      rw [if_pos htyp]
    unfold wstat
    simp [useAbsPath, hv, hp2, hsz2, hwalk]
  · intro root now p nd d' delta hp hok
    unfold wstat at hok
    split at hok
    · exact absurd hok (by simp)
    · rename_i p2 heq
      obtain ⟨hp2, hv⟩ := useAbsPath_ok heq
      subst hp2
      split at hok
      · rename_i hctl
        exact absurd hctl (by simp [hp])
      · split at hok
        · exact absurd hok (by simp)
        · simp only [Except.ok.injEq, Prod.mk.injEq] at hok
          rw [← hok.2]
          exact dget_wstatDelta_wuid _ _
  · intro root n now p nd d' delta hv hp hres htyp hok
    unfold wstat at hok
    split at hok
    · exact absurd hok (by simp)
    · rename_i p2 heq
      obtain ⟨hp2, hv2⟩ := useAbsPath_ok heq
      subst hp2
      split at hok
      · rename_i hctl
        exact absurd hctl (by simp [hp])
      · split at hok
        · exact absurd hok (by simp)
        · rename_i f heq2
          rw [walk_resolved (elems p2) root n _ [] now hres] at heq2
          have hfn : f = n := terminalMode_ok heq2
          subst hfn
          simp only [Except.ok.injEq, Prod.mk.injEq] at hok
          rw [← hok.2]
          exact dget_wstatDelta_size_dir nd htyp

/-- Counterexample to C6 as stated: a Wstat on the directory `/d` whose
delta contains `size = "5"` fails with `IsDir` (the size forces a
Put-mode walk, which rejects directories) instead of succeeding with
the size ignored. -/
theorem C6_dir_size_wstat_fails :
    wstat treeD "t0" "/d" [("size", "5")] = .error .isDir := by rfl

/-- Witness for C6's conjuncts at the concrete cache `treeD`. -/
theorem C6_wstat_forbidden_keys_witness :
    wstat treeD "t0" "/d" [("size", "5"), ("wuid", "w")] = .error .isDir :=
  C6_wstat_forbidden_keys.1 treeD (.mk dDir false []) "t0" "/d"
    [("size", "5"), ("wuid", "w")] (by decide) (by decide) (by decide)
    (by rfl) (by decide)

/-- **C10**: for every valid absolute path `p`, `Move(p, p)` (remote
supporting move) and `Link(p, p)` (remote supporting link) return
success immediately: no sync, no walk, no lock, no invalidation, no
remote call — the event trace is empty — regardless of the cache view
and walk outcomes. -/
theorem C10_identity_noop (p : String) (menv : MoveEnv) (lenv : LinkEnv)
    (hv : validPath p = true) :
    move true menv p p = (.ok (), []) ∧ link true lenv p p = (.ok (), []) := by
  constructor
  · unfold move
    simp [useAbsPath, hv]
  · unfold link
    simp [useAbsPath, hv]

/-- Witness for C10 at the reserved paths `/Ctl` and `/`: the identity
check precedes and bypasses the Perm rejection. -/
theorem C10_identity_noop_witness :
    (move true envAllOk "/Ctl" "/Ctl" = (.ok (), []) ∧
      link true linkEnvA "/Ctl" "/Ctl" = (.ok (), [])) ∧
    (move true envAllOk "/" "/" = (.ok (), []) ∧
      link true linkEnvA "/" "/" = (.ok (), [])) :=
  ⟨C10_identity_noop "/Ctl" envAllOk linkEnvA (by decide),
   C10_identity_noop "/" envAllOk linkEnvA (by decide)⟩

example : goDirname "/a" = "/" := by decide

example : goJoin "/b" "/c/d" = "/b/c/d" := by decide

example : zxSuffix "/a/b" "/a" = "/b" := by decide

example : zxSuffix "/a" "/a" = "/" := by decide

example : zxSuffix "/ab" "/a" = "" := by decide

example : hasPfx "/a/b" "/a" = true := by decide

example : hasPfx "/ab" "/a" = false := by decide

example : strLess "/a" "/a/b" = true := by decide

end Zxc
